import Mathlib

set_option maxRecDepth 8000

/-!
Verification of the rieMiner prime-constellation search core, a shallow
embedding of `src/miner.cpp`.  Machine integers are modelled as `Nat` with
explicit `% 2 ^ w` at the places where the C code computes in a fixed
width and the width could matter; big integers (GMP `mpz_t`) are `Nat`
directly (all values handled by the miner are non-negative).
-/

namespace RieMiner

/-- Constant `riecoin_sieveBits` (miner.cpp:62). -/
def sieveBits : Nat := 24

/-- Constant `riecoin_sieveSize = 1 << riecoin_sieveBits` (miner.cpp:63). -/
def sieveSize : Nat := 2 ^ 24

/-- Constant `riecoin_sieveWords = riecoin_sieveSize/64` (miner.cpp:64). -/
def sieveWords : Nat := sieveSize / 64

/-- Constant `max_increments = 1 << 29` (miner.cpp:68). -/
def maxIncrements : Nat := 2 ^ 29

/-- Constant `maxiter = max_increments/riecoin_sieveSize` (miner.cpp:69). -/
def maxiter : Nat := maxIncrements / sieveSize

/-- Constant `primorial_offset` (miner.cpp:71). -/
def primorialOffset : Nat := 16057

/-- Constant `primeTupleOffset = {0, 4, 2, 4, 2, 4}` (miner.cpp:72):
the successive increments between the members of a sextuplet. -/
def primeTupleOffset : List Nat := [0, 4, 2, 4, 2, 4]

/-- Cumulative bias of constellation member `f`: the sum of
`primeTupleOffset[0..f]`, i.e. 0, 4, 6, 10, 12, 16. -/
def cumBias (f : Nat) : Nat := (primeTupleOffset.take (f + 1)).sum

/-- Value of `miner.primorial` for the default `primorialNumber = 40`
(miner.cpp:17, miner.cpp:114-116): the product of the first 40 primes
2 · 3 · ⋯ · 173.  Used for concrete instantiations. -/
def primorial40 : Nat :=
  166589903787325219380851695350896256250980509594874862046961683989710

/-- The per-block computation of `z_remainderPrimorial` from the target
(miner.cpp:426-431): `R = ((P - target mod P) mod P) + primorial_offset`.
The two `mpz_abs` calls are identities since every intermediate value is
non-negative (`target ≥ 0`, and `P - target mod P ∈ (0, P]`). -/
def remainderPrimorial (tar P : Nat) : Nat :=
  (P - tar % P) % P + primorialOffset

/-- C4 (amended): the remainder `R = remainderPrimorial tar P` satisfies
`(tar + R) % P = primorialOffset` (the primorial-residue alignment, using
`primorialOffset < P`), and `R < P + primorialOffset`.  The stronger bound
`R < P` claimed by the spec is false in general (see
`remainderPrimorial_not_lt_primorial`). -/
theorem remainderPrimorial_spec (tar P : Nat) (hP : primorialOffset < P) :
    (tar + remainderPrimorial tar P) % P = primorialOffset ∧
    remainderPrimorial tar P < P + primorialOffset := by
  have hP0 : 0 < P := lt_of_le_of_lt (Nat.zero_le _) hP
  have hmod := Nat.mod_lt tar hP0
  have hdm := Nat.div_add_mod tar P
  have hsub : (P - tar % P) % P < P := Nat.mod_lt _ hP0
  refine ⟨?_, by unfold remainderPrimorial; omega⟩
  have hm : ∃ m, tar + remainderPrimorial tar P = P * m + primorialOffset := by
    rcases Nat.eq_zero_or_pos (tar % P) with h0 | hpos
    · refine ⟨tar / P, ?_⟩
      unfold remainderPrimorial
      rw [h0, Nat.sub_zero, Nat.mod_self]
      omega
    · refine ⟨tar / P + 1, ?_⟩
      unfold remainderPrimorial
      rw [Nat.mod_eq_of_lt (by omega : P - tar % P < P)]
      have hmul : P * (tar / P + 1) = P * (tar / P) + P := by ring
      omega
  rcases hm with ⟨m, hm⟩
  rw [hm, Nat.add_comm (P * m), Nat.add_mul_mod_self_left]
  exact Nat.mod_eq_of_lt hP

/-- Constant `zeroesBeforeHashInPrime` (miner.cpp:363). -/
def zeroesBeforeHashInPrime : Nat := 8

/-- The uint32 computation `searchBits - 1 - zeroesBeforeHashInPrime - 256`
(miner.cpp:386).  For every `searchBits < 2^32` the chained wrapping
subtractions equal `(searchBits + (2^32 - 265)) % 2^32`. -/
def trailingZeros (searchBits : Nat) : Nat :=
  (searchBits + (2 ^ 32 - 265)) % 2 ^ 32

/-- Core of `getTargetFromBlock` (miner.cpp:365-389), starting from the
double-SHA-256 digest `h` (32 bytes, little-endian byte order as stored in
`powHash`); the hashing itself is outside the mining core.  The value is
built as: 1, shifted left by 8, then 256 iterations of shift-left-one and
add bit `i % 8` of `h[i/8]` (the `_mp_d[0]++` on a freshly doubled, hence
even, limb is exactly `+ 1`), then shifted left by `trailingZeros`. -/
def hashBit (h : List Nat) (i : Nat) : Nat :=
  (h.getD (i / 8) 0 >>> (i % 8)) &&& 1

def targetFromHash (h : List Nat) (searchBits : Nat) : Nat :=
  let t0 : Nat := 1 * 2 ^ zeroesBeforeHashInPrime
  let t1 := (List.range 256).foldl (fun acc i => 2 * acc + hashBit h i) t0
  t1 * 2 ^ trailingZeros searchBits

/-- The 256-bit integer read from the digest with the bit order used by the
miner: bit `i % 8` of `h[i/8]` is bit `255 - i` of the value (most
significant first). -/
def hashValue (h : List Nat) : Nat :=
  (List.range 256).foldl (fun acc i => 2 * acc + hashBit h i) 0

theorem targetShiftLoop (b : Nat → Nat) :
    ∀ (n : Nat) (a : Nat),
      (List.range n).foldl (fun acc i => 2 * acc + b i) a
        = a * 2 ^ n + (List.range n).foldl (fun acc i => 2 * acc + b i) 0 := by
  intro n
  induction n with
  | zero => intro a; simp
  | succ n ih =>
    intro a
    rw [List.range_succ, List.foldl_append, List.foldl_append, ih a,
      List.foldl_cons, List.foldl_nil, List.foldl_cons, List.foldl_nil]
    ring

theorem targetShiftLoop_lt (b : Nat → Nat) (hb : ∀ i, b i ≤ 1) :
    ∀ (n : Nat), (List.range n).foldl (fun acc i => 2 * acc + b i) 0 < 2 ^ n := by
  intro n
  induction n with
  | zero => simp
  | succ n ih =>
    rw [List.range_succ, List.foldl_append, List.foldl_cons, List.foldl_nil]
    have := hb n
    have h2 : (2:Nat) ^ (n + 1) = 2 ^ n + 2 ^ n := by ring
    omega

/-- C6: for every digest `h` and compact target `searchBits` with
`265 ≤ searchBits < 2^32`, the derived target equals
`(2^264 + H) * 2^(searchBits - 265)` where `H = hashValue h` is the
bit-reversed 256-bit reading of the digest, and the target has exactly
`searchBits` bits. -/
theorem targetFromHash_spec (h : List Nat) (searchBits : Nat)
    (h265 : 265 ≤ searchBits) (h32 : searchBits < 2 ^ 32) :
    targetFromHash h searchBits
      = (2 ^ 264 + hashValue h) * 2 ^ (searchBits - 265) ∧
    2 ^ (searchBits - 1) ≤ targetFromHash h searchBits ∧
    targetFromHash h searchBits < 2 ^ searchBits := by
  have htz : trailingZeros searchBits = searchBits - 265 := by
    unfold trailingZeros
    have : searchBits + (2 ^ 32 - 265) = (searchBits - 265) + 2 ^ 32 := by omega
    rw [this, Nat.add_mod_right]
    exact Nat.mod_eq_of_lt (by omega)
  have hb1 : ∀ i, hashBit h i ≤ 1 := by
    intro i
    have hx : hashBit h i = (h.getD (i / 8) 0 >>> (i % 8)) % 2 :=
      Nat.and_one_is_mod _
    rw [hx]
    exact Nat.le_of_lt_succ (Nat.mod_lt _ (by norm_num))
  have hmain : targetFromHash h searchBits
      = (2 ^ 264 + hashValue h) * 2 ^ (searchBits - 265) := by
    show ((List.range 256).foldl (fun acc i => 2 * acc + hashBit h i)
        (1 * 2 ^ zeroesBeforeHashInPrime)) * 2 ^ trailingZeros searchBits
      = (2 ^ 264 + hashValue h) * 2 ^ (searchBits - 265)
    rw [htz, targetShiftLoop (hashBit h) 256 (1 * 2 ^ zeroesBeforeHashInPrime)]
    unfold hashValue
    norm_num [zeroesBeforeHashInPrime]
  have hH : hashValue h < 2 ^ 256 := targetShiftLoop_lt (hashBit h) hb1 256
  refine ⟨hmain, ?_, ?_⟩
  · rw [hmain]
    calc 2 ^ (searchBits - 1) = 2 ^ 264 * 2 ^ (searchBits - 265) := by
          rw [← pow_add, show 264 + (searchBits - 265) = searchBits - 1 from by omega]
    _ ≤ (2 ^ 264 + hashValue h) * 2 ^ (searchBits - 265) :=
          Nat.mul_le_mul_right _ (Nat.le_add_right _ _)
  · rw [hmain]
    calc (2 ^ 264 + hashValue h) * 2 ^ (searchBits - 265)
        < 2 ^ 265 * 2 ^ (searchBits - 265) := by
          have hpos : (0:Nat) < 2 ^ (searchBits - 265) := Nat.pos_pow_of_pos _ (by norm_num)
          have h2   : (2:Nat) ^ 265 = 2 ^ 264 + 2 ^ 264 := by ring
          have hle  : (2:Nat) ^ 256 ≤ 2 ^ 264 := Nat.pow_le_pow_right (by norm_num) (by norm_num)
          exact mul_lt_mul_of_pos_right (by omega) hpos
    _ = 2 ^ searchBits := by
          rw [← pow_add, show 265 + (searchBits - 265) = searchBits from by omega]

/-- Witness for C6 at a concrete digest and `searchBits = 300`. -/
theorem targetFromHash_spec_witness :
    (265 ≤ 300 ∧ 300 < 2 ^ 32) ∧
    (targetFromHash (List.replicate 32 171) 300
        = (2 ^ 264 + hashValue (List.replicate 32 171)) * 2 ^ (300 - 265) ∧
      2 ^ (300 - 1) ≤ targetFromHash (List.replicate 32 171) 300 ∧
      targetFromHash (List.replicate 32 171) 300 < 2 ^ 300) :=
  ⟨⟨by norm_num, by norm_num⟩,
    targetFromHash_spec (List.replicate 32 171) 300 (by norm_num) (by norm_num)⟩

/-- Witness for C4: the real 40-prime primorial together with a small
target. -/
theorem remainderPrimorial_spec_witness :
    primorialOffset < primorial40 ∧
    ((5 + remainderPrimorial 5 primorial40) % primorial40 = primorialOffset ∧
      remainderPrimorial 5 primorial40 < primorial40 + primorialOffset) :=
  ⟨by decide, remainderPrimorial_spec 5 primorial40 (by decide)⟩

/-- A 32-byte digest whose bit-reversed reading `H` makes the block target
`(2^264 + H)` (at `searchBits = 265`) congruent to 1 modulo the 40-prime
primorial. -/
def c4HashBytes : List Nat :=
  [0, 0, 0, 0, 31, 19, 251, 33, 171, 91, 99, 44, 28, 49, 118, 19,
   171, 177, 61, 103, 155, 174, 233, 196, 90, 19, 254, 14, 219, 197, 5, 183]

/-- Counterexample to C4 as stated: for this reachable block target the
computed remainder is not below the primorial (`0 ≤ R < P` fails; here
`R = P + primorialOffset - 1`). -/
theorem remainderPrimorial_not_lt_primorial :
    primorial40 ≤
      remainderPrimorial (targetFromHash c4HashBytes 265) primorial40 := by
  decide

/-- One step of the bias loop of `update_remainders` (miner.cpp:232-238):
`remainder += primeTupleOffset[f]; if (remainder > p) remainder -= p;
uint64_t pa(p - remainder); uint64_t index(pa*invert); index %= p;`.
The `pa * invert` product is a uint64 multiplication, hence the `% 2^64`;
`p - remainder` does not wrap because `remainder ≤ p` is an invariant of
the loop (proved in `urStep_spec`).  Returns the updated remainder and the
computed index. -/
def urStep (p invert r off : Nat) : Nat × Nat :=
  let r2 := r + off
  let r3 := if p < r2 then r2 - p else r2
  let pa := p - r3
  let index := pa * invert % 2 ^ 64 % p
  (r3, index)

/-- The list of indices produced by the `f` loop of `update_remainders`
(miner.cpp:232-250) for one prime, starting from remainder `r`, for the
given list of tuple offsets. -/
def urList (p invert : Nat) : Nat → List Nat → List Nat
  | _, [] => []
  | r, off :: offs =>
    let s := urStep p invert r off
    s.2 :: urList p invert s.1 offs

/-- The six per-bias offsets `update_remainders` stores for one resident
prime (miner.cpp:222-240): `offsets[i] = urIndices tar p invert` where
`tar = z_verify_target + z_verify_remainderPrimorial` (miner.cpp:213-216)
and the initial remainder is `mpz_tdiv_ui(tar, p)`. -/
def urIndices (tar p invert : Nat) : List Nat :=
  urList p invert (tar % p) primeTupleOffset

theorem urStep_spec (P tar p invert r off cb : Nat)
    (hp : 5 ≤ p) (hp32 : p < 2 ^ 32) (hinv : invert < p)
    (hunit : P * invert % p = 1)
    (hr : r ≤ p) (hrc : (tar + cb) % p = r % p) (hoff : off ≤ 4) :
    (urStep p invert r off).1 ≤ p ∧
    (tar + (cb + off)) % p = (urStep p invert r off).1 % p ∧
    (urStep p invert r off).2 < p ∧
    (tar + (urStep p invert r off).2 * P + (cb + off)) % p = 0 ∧
    ∀ y, y < (urStep p invert r off).2 →
      (tar + y * P + (cb + off)) % p ≠ 0 := by
  have hp0 : 0 < p := by omega
  set r2 := r + off with hr2
  set r3 := if p < r2 then r2 - p else r2 with hr3
  have hr3le : r3 ≤ p := by
    rw [hr3]; split <;> omega
  have hr3mod : r3 % p = r2 % p := by
    rw [hr3]
    split
    · rename_i hlt
      conv_rhs => rw [show r2 = (r2 - p) + p from by omega]
      rw [Nat.add_mod_right]
    · rfl
  have hrc3 : (tar + (cb + off)) % p = r3 % p := by
    rw [hr3mod, hr2]
    have h1 : tar + (cb + off) = (tar + cb) + off := by ring
    have h2 : (tar + cb + off) % p = (r + off) % p := by
      rw [Nat.add_mod, hrc, ← Nat.add_mod]
    rw [h1, h2]
  have hmul_lt : (p - r3) * invert < 2 ^ 64 := by
    calc (p - r3) * invert ≤ p * invert := Nat.mul_le_mul_right _ (by omega)
    _ < 2 ^ 32 * 2 ^ 32 := by
        apply Nat.mul_lt_mul_of_lt_of_lt hp32 (lt_trans hinv hp32)
    _ = 2 ^ 64 := by norm_num
  have hidx : (urStep p invert r off).2 = (p - r3) * invert % p := by
    show (p - r3) * invert % 2 ^ 64 % p = _
    rw [Nat.mod_eq_of_lt hmul_lt]
  have hr3fst : (urStep p invert r off).1 = r3 := rfl
  have hidxlt : (urStep p invert r off).2 < p := by
    rw [hidx]; exact Nat.mod_lt _ hp0
  -- facts in ZMod p
  have hcastPinv : ((P : ZMod p) * (invert : ZMod p)) = 1 := by
    have h1 : (((P * invert) % p : Nat) : ZMod p) = ((P * invert : Nat) : ZMod p) :=
      ZMod.natCast_mod _ _
    rw [hunit] at h1
    push_cast at h1
    exact h1.symm
  have hcast_idx : (((urStep p invert r off).2 : Nat) : ZMod p)
      = - ((r3 : ZMod p) * (invert : ZMod p)) := by
    rw [hidx]
    rw [ZMod.natCast_mod]
    push_cast [Nat.cast_sub hr3le]
    rw [ZMod.natCast_self]
    ring
  have hcast_tar : ((tar : ZMod p) + ((cb : ZMod p) + (off : ZMod p)))
      = (r3 : ZMod p) := by
    have := (ZMod.natCast_eq_natCast_iff' (tar + (cb + off)) r3 p).mpr hrc3
    push_cast at this
    exact this
  refine ⟨hr3le, hrc3, hidxlt, ?_, ?_⟩
  · rw [← Nat.dvd_iff_mod_eq_zero]
    rw [← ZMod.natCast_zmod_eq_zero_iff_dvd]
    push_cast
    rw [hcast_idx]
    have : (tar : ZMod p) + -((r3 : ZMod p) * (invert : ZMod p)) * (P : ZMod p)
        + ((cb : ZMod p) + (off : ZMod p))
        = ((tar : ZMod p) + ((cb : ZMod p) + (off : ZMod p)))
          - (r3 : ZMod p) * ((P : ZMod p) * (invert : ZMod p)) := by ring
    rw [this, hcast_tar, hcastPinv]
    ring
  · intro y hy hmod
    have hidx0 : (tar + (urStep p invert r off).2 * P + (cb + off)) % p = 0 := by
      rw [← Nat.dvd_iff_mod_eq_zero, ← ZMod.natCast_zmod_eq_zero_iff_dvd]
      push_cast
      rw [hcast_idx]
      have : (tar : ZMod p) + -((r3 : ZMod p) * (invert : ZMod p)) * (P : ZMod p)
          + ((cb : ZMod p) + (off : ZMod p))
          = ((tar : ZMod p) + ((cb : ZMod p) + (off : ZMod p)))
            - (r3 : ZMod p) * ((P : ZMod p) * (invert : ZMod p)) := by ring
      rw [this, hcast_tar, hcastPinv]
      ring
    -- both y and idx solve the congruence; P is invertible mod p
    have hy0 : ((tar + y * P + (cb + off) : Nat) : ZMod p) = 0 := by
      rw [ZMod.natCast_zmod_eq_zero_iff_dvd, Nat.dvd_iff_mod_eq_zero]
      exact hmod
    have hi0 : ((tar + (urStep p invert r off).2 * P + (cb + off) : Nat) : ZMod p) = 0 := by
      rw [ZMod.natCast_zmod_eq_zero_iff_dvd, Nat.dvd_iff_mod_eq_zero]
      exact hidx0
    push_cast at hy0 hi0
    have hPy : (y : ZMod p) * ((P : ZMod p) * (invert : ZMod p))
        = (((urStep p invert r off).2 : Nat) : ZMod p) * ((P : ZMod p) * (invert : ZMod p)) := by
      have hYP : (y : ZMod p) * (P : ZMod p)
          = (((urStep p invert r off).2 : Nat) : ZMod p) * (P : ZMod p) := by
        have := sub_eq_zero.mpr hy0.symm
        have heq : (y : ZMod p) * (P : ZMod p) - (((urStep p invert r off).2 : Nat) : ZMod p) * (P : ZMod p)
            = ((tar : ZMod p) + (y : ZMod p) * (P : ZMod p) + ((cb : ZMod p) + (off : ZMod p)))
              - ((tar : ZMod p) + (((urStep p invert r off).2 : Nat) : ZMod p) * (P : ZMod p) + ((cb : ZMod p) + (off : ZMod p))) := by
          ring
        have : (y : ZMod p) * (P : ZMod p) - (((urStep p invert r off).2 : Nat) : ZMod p) * (P : ZMod p) = 0 := by
          rw [heq, hy0, hi0]
          ring
        linear_combination this
      calc (y : ZMod p) * ((P : ZMod p) * (invert : ZMod p))
          = ((y : ZMod p) * (P : ZMod p)) * (invert : ZMod p) := by ring
      _ = ((((urStep p invert r off).2 : Nat) : ZMod p) * (P : ZMod p)) * (invert : ZMod p) := by rw [hYP]
      _ = (((urStep p invert r off).2 : Nat) : ZMod p) * ((P : ZMod p) * (invert : ZMod p)) := by ring
    rw [hcastPinv] at hPy
    simp only [mul_one] at hPy
    have hyx : y % p = (urStep p invert r off).2 % p := by
      have := (ZMod.natCast_eq_natCast_iff' y (urStep p invert r off).2 p).mp (by push_cast; exact hPy)
      exact this
    rw [Nat.mod_eq_of_lt (lt_trans hy hidxlt), Nat.mod_eq_of_lt hidxlt] at hyx
    omega

theorem urList_spec (P tar p invert : Nat)
    (hp : 5 ≤ p) (hp32 : p < 2 ^ 32) (hinv : invert < p)
    (hunit : P * invert % p = 1) :
    ∀ (offs : List Nat) (r cb : Nat), r ≤ p → (tar + cb) % p = r % p →
      (∀ o ∈ offs, o ≤ 4) →
      ∀ f, f < offs.length →
        ((urList p invert r offs).getD f 0 < p ∧
         (tar + (urList p invert r offs).getD f 0 * P
            + (cb + (offs.take (f + 1)).sum)) % p = 0 ∧
         ∀ y, y < (urList p invert r offs).getD f 0 →
           (tar + y * P + (cb + (offs.take (f + 1)).sum)) % p ≠ 0) := by
  intro offs
  induction offs with
  | nil => intro r cb _ _ _ f hf; simp at hf
  | cons off offs ih =>
    intro r cb hr hrc hmem f hf
    have hoff : off ≤ 4 := hmem off (List.mem_cons_self _ _)
    obtain ⟨h1, h2, h3, h4, h5⟩ :=
      urStep_spec P tar p invert r off cb hp hp32 hinv hunit hr hrc hoff
    match f with
    | 0 =>
      refine ⟨h3, ?_, ?_⟩
      · show (tar + (urStep p invert r off).2 * P + (cb + ([off].sum))) % p = 0
        simpa using h4
      · intro y hy
        have := h5 y hy
        simpa using this
    | Nat.succ f =>
      have hlen : f < offs.length := by simpa using hf
      have := ih (urStep p invert r off).1 (cb + off) h1 h2
        (fun o ho => hmem o (List.mem_cons_of_mem _ ho)) f hlen
      obtain ⟨g1, g2, g3⟩ := this
      have hget : (urList p invert r (off :: offs)).getD (f + 1) 0
          = (urList p invert (urStep p invert r off).1 offs).getD f 0 := rfl
      have hsum : ((off :: offs).take (f + 1 + 1)).sum
          = off + (offs.take (f + 1)).sum := by
        simp [List.take_succ_cons]
      refine ⟨by rw [hget]; exact g1, ?_, ?_⟩
      · rw [hget, hsum, show cb + (off + (offs.take (f + 1)).sum)
          = (cb + off) + (offs.take (f + 1)).sum from by ring]
        exact g2
      · intro y hy
        rw [hget] at hy
        rw [hsum, show cb + (off + (offs.take (f + 1)).sum)
          = (cb + off) + (offs.take (f + 1)).sum from by ring]
        exact g3 y hy

/-- Every index produced by the `update_remainders` bias loop is reduced
modulo `p`, hence below `p` (miner.cpp:238). -/
theorem urList_mem_lt (p invert : Nat) (hp : 0 < p) :
    ∀ (offs : List Nat) (r : Nat), ∀ idx ∈ urList p invert r offs, idx < p := by
  intro offs
  induction offs with
  | nil => intro r idx h; simp [urList] at h
  | cons off offs ih =>
    intro r idx h
    rw [urList] at h
    rcases List.mem_cons.mp h with h | h
    · subst h
      show (let r2 := r + off; let r3 := if p < r2 then r2 - p else r2;
            (p - r3) * invert % 2 ^ 64 % p) < p
      exact Nat.mod_lt _ hp
    · exact ih _ idx h

/-- C1: immediately after `update_remainders` ran over a range of resident
primes, for each such prime `p = primes[i]` (with `m ≤ i`, so that
`invert` really inverts the primorial modulo `p`, and `p < max_increments`)
and each bias index `f < 6`, the stored offset `offsets[i][f]` is the
smallest non-negative `x` with
`(zTarget + zRemainderPrimorial + x·P + cumBias f) mod p = 0`. -/
theorem update_remainders_offsets_spec (P zT R p invert : Nat)
    (hp : 5 ≤ p) (hpmax : p < maxIncrements) (hinv : invert < p)
    (hunit : P * invert % p = 1) (f : Nat) (hf : f < 6) :
    (zT + R + (urIndices (zT + R) p invert).getD f 0 * P + cumBias f) % p = 0 ∧
    ∀ y, y < (urIndices (zT + R) p invert).getD f 0 →
      (zT + R + y * P + cumBias f) % p ≠ 0 := by
  have hp32 : p < 2 ^ 32 := lt_trans hpmax (by norm_num [maxIncrements])
  have hlen : f < primeTupleOffset.length := by
    simpa [primeTupleOffset] using hf
  have h0 : (zT + R + 0) % p = ((zT + R) % p) % p := by
    rw [Nat.add_zero, Nat.mod_mod_of_dvd _ (dvd_refl p)]
  obtain ⟨h1, h2, h3⟩ := urList_spec P (zT + R) p invert hp hp32 hinv hunit
    primeTupleOffset ((zT + R) % p) 0 (le_of_lt (Nat.mod_lt _ (by omega))) h0
    (by intro o ho; fin_cases ho <;> norm_num) f hlen
  have hcb : cumBias f = 0 + (primeTupleOffset.take (f + 1)).sum := by
    rw [cumBias]; ring
  refine ⟨?_, ?_⟩
  · rw [show zT + R + (urIndices (zT + R) p invert).getD f 0 * P + cumBias f
      = zT + R + (urIndices (zT + R) p invert).getD f 0 * P
        + (0 + (primeTupleOffset.take (f + 1)).sum) from by rw [← hcb]]
    exact h2
  · intro y hy
    rw [show zT + R + y * P + cumBias f
      = zT + R + y * P + (0 + (primeTupleOffset.take (f + 1)).sum) from by
        rw [← hcb]]
    exact h3 y hy

/-- Witness for C1 at `p = 13`, `P = 2310` (the primorial of the first five
primes), `invert = 3` (indeed `2310 · 3 ≡ 1 (mod 13)`), bias `f = 3`. -/
theorem update_remainders_offsets_spec_witness :
    (5 ≤ 13 ∧ (13:Nat) < maxIncrements ∧ (3:Nat) < 13 ∧ 2310 * 3 % 13 = 1 ∧ (3:Nat) < 6) ∧
    ((12340 + 5 + (urIndices (12340 + 5) 13 3).getD 3 0 * 2310 + cumBias 3) % 13 = 0 ∧
      ∀ y, y < (urIndices (12340 + 5) 13 3).getD 3 0 →
        (12340 + 5 + y * 2310 + cumBias 3) % 13 ≠ 0) :=
  ⟨⟨by norm_num, by norm_num [maxIncrements], by norm_num, by norm_num, by norm_num⟩,
    update_remainders_offsets_spec 2310 12340 5 13 3 (by norm_num)
      (by norm_num [maxIncrements]) (by norm_num) (by norm_num) 3 (by norm_num)⟩

/-- The per-slot sieving loop shared by the dense stratum
(miner.cpp:502-507) and `process_sieve` (miner.cpp:268-272):
`while (offsets[pno][f] < sieveSize) { touch position; offsets[pno][f] += p; }
offsets[pno][f] -= sieveSize;`.  Fuel-indexed structural recursion;
`none` models fuel exhaustion and never occurs for `1 ≤ p` with fuel
`sieveSize + 1`.  Returns the touched positions (in order) and the offset
value left for the next iteration. -/
def slotRunF (p : Nat) : Nat → Nat → Option (List Nat × Nat)
  | 0, o =>
    if o < sieveSize then none else some ([], o - sieveSize)
  | fuel + 1, o =>
    if o < sieveSize then
      (slotRunF p fuel (o + p)).map (fun r => (o :: r.1, r.2))
    else some ([], o - sieveSize)

/-- The slot loop with enough fuel for any `p ≥ 1`. -/
def slotRun (p o : Nat) : Option (List Nat × Nat) :=
  slotRunF p (sieveSize + 1) o

theorem slotRunF_spec (p : Nat) (hp : 1 ≤ p) :
    ∀ (fuel o : Nat), sieveSize ≤ o + fuel * p →
      ∃ ms nx, slotRunF p fuel o = some (ms, nx) ∧
        (∀ x, x ∈ ms ↔ o ≤ x ∧ x < sieveSize ∧ x % p = o % p) ∧
        (∃ oend, sieveSize ≤ oend ∧ nx = oend - sieveSize ∧
          oend % p = o % p ∧ (oend < sieveSize + p ∨ oend = o)) := by
  intro fuel
  induction fuel with
  | zero =>
    intro o hfuel
    simp only [Nat.zero_mul, Nat.add_zero] at hfuel
    refine ⟨[], o - sieveSize, ?_, ?_, o, hfuel, rfl, rfl, Or.inr rfl⟩
    · rw [slotRunF, if_neg (by omega)]
    · intro x
      simp only [List.not_mem_nil, false_iff]
      omega
  | succ fuel ih =>
    intro o hfuel
    by_cases ho : o < sieveSize
    · have hrec : sieveSize ≤ (o + p) + fuel * p := by
        have : o + (fuel + 1) * p = (o + p) + fuel * p := by ring
        omega
      obtain ⟨ms, nx, hrun, hmem, oend, hoe1, hoe2, hoe3, hoe4⟩ := ih (o + p) hrec
      refine ⟨o :: ms, nx, ?_, ?_, oend, hoe1, hoe2, ?_, ?_⟩
      · rw [slotRunF, if_pos ho, hrun]
        rfl
      · intro x
        rw [List.mem_cons, hmem x]
        constructor
        · rintro (rfl | ⟨hx1, hx2, hx3⟩)
          · exact ⟨le_refl _, ho, rfl⟩
          · exact ⟨by omega, hx2, by rw [hx3, Nat.add_mod_right]⟩
        · rintro ⟨hx1, hx2, hx3⟩
          rcases Nat.eq_or_lt_of_le hx1 with rfl | hlt
          · exact Or.inl rfl
          · right
            have hdvd : p ∣ x - o := by
              have := (Nat.modEq_iff_dvd' (le_of_lt hlt)).mp
                (show o ≡ x [MOD p] from hx3.symm)
              exact this
            have hge : p ≤ x - o := Nat.le_of_dvd (by omega) hdvd
            exact ⟨by omega, hx2, by rw [hx3, Nat.add_mod_right]⟩
      · rw [hoe3, Nat.add_mod_right]
      · rcases hoe4 with h | h
        · exact Or.inl h
        · left
          rw [h]
          omega
    · refine ⟨[], o - sieveSize, ?_, ?_, o, by omega, rfl, rfl, Or.inr rfl⟩
      · rw [slotRunF, if_neg ho]
      · intro x
        simp only [List.not_mem_nil, false_iff]
        omega

/-- The slot loop always succeeds with fuel `sieveSize + 1` when `p ≥ 1`,
touches exactly the positions below `sieveSize` congruent to the starting
offset (and at or above it), and leaves `offset mod sieveSize`-style
carry-over for the next iteration. -/
theorem slotRun_spec (p o : Nat) (hp : 1 ≤ p) :
    ∃ ms nx, slotRun p o = some (ms, nx) ∧
      (∀ x, x ∈ ms ↔ o ≤ x ∧ x < sieveSize ∧ x % p = o % p) ∧
      (∃ oend, sieveSize ≤ oend ∧ nx = oend - sieveSize ∧
        oend % p = o % p ∧ (oend < sieveSize + p ∨ oend = o)) := by
  apply slotRunF_spec p hp
  calc sieveSize ≤ (sieveSize + 1) * 1 := by omega
  _ ≤ (sieveSize + 1) * p := Nat.mul_le_mul_left _ hp
  _ ≤ o + (sieveSize + 1) * p := Nat.le_add_left _ _

/-- If the incoming offset is reduced (`o < p`), the slot loop leaves a
reduced offset (`nx < p`). -/
theorem slotRun_next_lt (p o nx : Nat) (ms : List Nat) (hp : 1 ≤ p) (ho : o < p)
    (h : slotRun p o = some (ms, nx)) : nx < p := by
  obtain ⟨ms2, nx2, hrun, _, oend, h1, h2, _, h4⟩ := slotRun_spec p o hp
  rw [h] at hrun
  injection hrun with hrun
  injection hrun with e1 e2
  subst e1
  rcases h4 with h4 | h4 <;> omega

/-- C10: the per-slot invariant `offsets[i][f] < p`.
Part 1: every index stored by `update_remainders` is below `p`
(miner.cpp:238-240).  Part 2: for any starting offset `o < p` the sieve
pass over one segment terminates, touches only positions below
`sieveSize`, performs its final `-= sieveSize` on a value that is at least
`sieveSize` (no uint32 wraparound), keeps the residue class modulo `p`
shifted by one segment, and leaves an offset again below `p` — including
the zero-iteration case of primes larger than `sieveSize`. -/
theorem offsets_invariant (tar p invert o : Nat) (hp : 1 ≤ p) (ho : o < p) :
    (∀ idx ∈ urIndices tar p invert, idx < p) ∧
    (∃ ms nx, slotRun p o = some (ms, nx) ∧ nx < p ∧
      (∀ x ∈ ms, x < sieveSize) ∧
      (∃ oend, sieveSize ≤ oend ∧ nx = oend - sieveSize ∧
        oend % p = o % p)) := by
  constructor
  · intro idx h
    exact urList_mem_lt p invert (by omega) primeTupleOffset (tar % p) idx h
  · obtain ⟨ms, nx, hrun, hmem, oend, h1, h2, h3, h4⟩ := slotRun_spec p o hp
    refine ⟨ms, nx, hrun, ?_, ?_, oend, h1, h2, h3⟩
    · rcases h4 with h4 | h4 <;> omega
    · intro x hx
      exact ((hmem x).mp hx).2.1

/-- Witness for C10 at `p = 13`, a starting offset of `5`. -/
theorem offsets_invariant_witness :
    ((1:Nat) ≤ 13 ∧ (5:Nat) < 13) ∧
    ((∀ idx ∈ urIndices 77 13 3, idx < 13) ∧
      (∃ ms nx, slotRun 13 5 = some (ms, nx) ∧ nx < 13 ∧
        (∀ x ∈ ms, x < sieveSize) ∧
        (∃ oend, sieveSize ≤ oend ∧ nx = oend - sieveSize ∧
          oend % 13 = 5 % 13))) :=
  ⟨⟨by norm_num, by norm_num⟩,
    offsets_invariant 77 13 3 5 (by norm_num) (by norm_num)⟩

/-- State of the once-only segment buckets: `segment_counts` (miner.cpp:75)
and `segment_hits` (miner.cpp:164).  Writes always happen at position
`counts k` of bucket `k`, so the filled prefix of `segment_hits[k]` is
modelled as a list that grows at the end. -/
structure SegState where
  counts : Nat → Nat
  hits : Nat → List Nat

/-- The all-empty bucket state established per block (miner.cpp:440-441). -/
def segInit : SegState := ⟨fun _ => 0, fun _ => []⟩

/-- One iteration of the loop body of `put_offsets_in_segments`
(miner.cpp:196-206): compute the bucket `index >> riecoin_sieveBits`,
abort (`exit(-1)`, modelled as `none`) if the bucket is full, otherwise
store `index - sieveSize*segment` at the fill position and bump the
count. -/
def putStep (eps : Nat) (st : SegState) (x : Nat) : Option SegState :=
  if eps ≤ st.counts (x >>> sieveBits) then none
  else some
    { counts := fun k =>
        if k = x >>> sieveBits then st.counts (x >>> sieveBits) + 1
        else st.counts k,
      hits := fun k =>
        if k = x >>> sieveBits then
          st.hits k ++ [x - sieveSize * (x >>> sieveBits)]
        else st.hits k }

/-- `put_offsets_in_segments(offsets, n_offsets)` (miner.cpp:194-208) over
the flushed list of offsets. -/
def putOffsetsInSegments (eps : Nat) (st : SegState) : List Nat → Option SegState
  | [] => some st
  | x :: xs => (putStep eps st x).bind (fun st2 => putOffsetsInSegments eps st2 xs)

theorem putStep_none_iff (eps : Nat) (st : SegState) (x : Nat) :
    putStep eps st x = none ↔ eps ≤ st.counts (x >>> sieveBits) := by
  unfold putStep
  split
  · simp [*]
  · simp
    omega

theorem putStep_some_spec (eps : Nat) (st st1 : SegState) (x : Nat)
    (h : putStep eps st x = some st1) :
    st.counts (x >>> sieveBits) < eps ∧
    st1.counts (x >>> sieveBits) = st.counts (x >>> sieveBits) + 1 ∧
    st1.hits (x >>> sieveBits) = st.hits (x >>> sieveBits) ++ [x % sieveSize] ∧
    (∀ k, k ≠ x >>> sieveBits → st1.counts k = st.counts k ∧ st1.hits k = st.hits k) := by
  have hshift : x >>> sieveBits = x / sieveSize := by
    rw [Nat.shiftRight_eq_div_pow]
    rfl
  have hdm := Nat.div_add_mod x sieveSize
  have hsub : x - sieveSize * (x >>> sieveBits) = x % sieveSize := by
    rw [hshift]
    omega
  unfold putStep at h
  split at h
  · exact absurd h (by simp)
  · rename_i hlt
    injection h with h
    subst h
    refine ⟨by omega, by simp, ?_, ?_⟩
    · simp [hsub]
    · intro k hk
      simp [if_neg hk]

theorem putOffsets_counts_le (eps : Nat) :
    ∀ (xs : List Nat) (st st2 : SegState),
      putOffsetsInSegments eps st xs = some st2 →
      (∀ k, st.counts k ≤ eps) → ∀ k, st2.counts k ≤ eps := by
  intro xs
  induction xs with
  | nil =>
    intro st st2 h hle
    rw [putOffsetsInSegments] at h
    injection h with h
    subst h
    exact hle
  | cons x xs ih =>
    intro st st2 h hle
    rw [putOffsetsInSegments] at h
    rcases hob : putStep eps st x with _ | st1
    · rw [hob] at h; exact Option.noConfusion h
    · rw [hob] at h
      have h2 : putOffsetsInSegments eps st1 xs = some st2 := h
      obtain ⟨hc1, hc2, _, hother⟩ := putStep_some_spec eps st st1 x hob
      refine ih st1 st2 h2 ?_
      intro k
      by_cases hk : k = x >>> sieveBits
      · subst hk; omega
      · rw [(hother k hk).1]; exact hle k

/-- Membership in the buckets after a successful flush: exactly the old
entries plus, in bucket `k`, the values `x mod sieveSize` of the flushed
indices `x` with `x >> sieveBits = k`. -/
theorem putOffsets_mem (eps : Nat) :
    ∀ (xs : List Nat) (st st2 : SegState),
      putOffsetsInSegments eps st xs = some st2 →
      ∀ k v, v ∈ st2.hits k ↔
        (v ∈ st.hits k ∨ ∃ x ∈ xs, x >>> sieveBits = k ∧ x % sieveSize = v) := by
  intro xs
  induction xs with
  | nil =>
    intro st st2 h k v
    rw [putOffsetsInSegments] at h
    injection h with h
    subst h
    simp
  | cons x xs ih =>
    intro st st2 h k v
    rw [putOffsetsInSegments] at h
    rcases hob : putStep eps st x with _ | st1
    · rw [hob] at h; exact Option.noConfusion h
    · rw [hob] at h
      have h2 : putOffsetsInSegments eps st1 xs = some st2 := h
      obtain ⟨_, _, hhit, hother⟩ := putStep_some_spec eps st st1 x hob
      rw [ih st1 st2 h2 k v]
      constructor
      · rintro (hv | ⟨y, hy1, hy2, hy3⟩)
        · by_cases hk : k = x >>> sieveBits
          · subst hk
            rw [hhit, List.mem_append] at hv
            rcases hv with hv | hv
            · exact Or.inl hv
            · simp only [List.mem_singleton] at hv
              exact Or.inr ⟨x, List.mem_cons_self _ _, rfl, hv.symm⟩
          · rw [(hother k (by omega)).2] at hv
            exact Or.inl hv
        · exact Or.inr ⟨y, List.mem_cons_of_mem _ hy1, hy2, hy3⟩
      · rintro (hv | ⟨y, hy1, hy2, hy3⟩)
        · by_cases hk : k = x >>> sieveBits
          · subst hk
            left
            rw [hhit, List.mem_append]
            exact Or.inl hv
          · left
            rw [(hother k (by omega)).2]
            exact hv
        · rcases List.mem_cons.mp hy1 with rfl | hy1
          · left
            subst hy2
            rw [hhit, List.mem_append]
            right
            simp [hy3]
          · exact Or.inr ⟨y, hy1, hy2, hy3⟩

/-- C7: bucket safety of `put_offsets_in_segments`.  The fill check happens
before each write and a full bucket aborts the whole process (`none`);
otherwise a flushed index `x < max_increments` goes to bucket
`x >> sieveBits < maxiter` at value `x mod sieveSize`, the bucket count
grows by one, and `segment_counts[k] ≤ entriesPerSegment` is preserved for
every bucket at every step. -/
theorem put_offsets_in_segments_spec (eps : Nat) (st st1 st2 : SegState)
    (x : Nat) (xs : List Nat) (hinv : ∀ k, st.counts k ≤ eps) :
    (putStep eps st x = none ↔ eps ≤ st.counts (x >>> sieveBits)) ∧
    (putStep eps st x = some st1 →
      st.counts (x >>> sieveBits) < eps ∧
      st1.counts (x >>> sieveBits) = st.counts (x >>> sieveBits) + 1 ∧
      st1.hits (x >>> sieveBits) = st.hits (x >>> sieveBits) ++ [x % sieveSize] ∧
      (∀ k, k ≠ x >>> sieveBits → st1.counts k = st.counts k ∧ st1.hits k = st.hits k) ∧
      (∀ k, st1.counts k ≤ eps)) ∧
    (x < maxIncrements → x >>> sieveBits < maxiter) ∧
    (putOffsetsInSegments eps st xs = some st2 → ∀ k, st2.counts k ≤ eps) := by
  refine ⟨putStep_none_iff eps st x, ?_, ?_, ?_⟩
  · intro h
    obtain ⟨h1, h2, h3, h4⟩ := putStep_some_spec eps st st1 x h
    refine ⟨h1, h2, h3, h4, ?_⟩
    intro k
    by_cases hk : k = x >>> sieveBits
    · subst hk; omega
    · rw [(h4 k hk).1]; exact hinv k
  · intro hx
    have : x >>> sieveBits = x / sieveSize := by
      rw [Nat.shiftRight_eq_div_pow]; rfl
    rw [this]
    have : x / sieveSize < maxIncrements / sieveSize :=
      Nat.div_lt_div_of_lt_of_dvd (by norm_num [maxIncrements, sieveSize]) hx
    simpa [maxiter] using this
  · intro h
    exact putOffsets_counts_le eps xs st st2 h hinv

/-- Witness for C7: the empty bucket state, one index, an empty flush
list. -/
theorem put_offsets_in_segments_spec_witness :
    (∀ k, segInit.counts k ≤ 4) ∧
    ((putStep 4 segInit 5 = none ↔ 4 ≤ segInit.counts (5 >>> sieveBits)) ∧
      (∀ h1, putStep 4 segInit 5 = some h1 →
        segInit.counts (5 >>> sieveBits) < 4 ∧
        h1.counts (5 >>> sieveBits) = segInit.counts (5 >>> sieveBits) + 1 ∧
        h1.hits (5 >>> sieveBits) = segInit.hits (5 >>> sieveBits) ++ [5 % sieveSize] ∧
        (∀ k, k ≠ 5 >>> sieveBits → h1.counts k = segInit.counts k ∧ h1.hits k = segInit.hits k) ∧
        (∀ k, h1.counts k ≤ 4)) ∧
      ((5:Nat) < maxIncrements → 5 >>> sieveBits < maxiter) ∧
      (putOffsetsInSegments 4 segInit [] = some segInit → ∀ k, segInit.counts k ≤ 4)) :=
  ⟨fun k => by norm_num [segInit],
    ⟨(put_offsets_in_segments_spec 4 segInit segInit segInit 5 [] (fun k => by norm_num [segInit])).1,
      fun h1 h => ((put_offsets_in_segments_spec 4 segInit h1 segInit 5 [] (fun k => by norm_num [segInit])).2.1 h),
      (put_offsets_in_segments_spec 4 segInit segInit segInit 5 [] (fun k => by norm_num [segInit])).2.2.1,
      (put_offsets_in_segments_spec 4 segInit segInit segInit 5 [] (fun k => by norm_num [segInit])).2.2.2⟩⟩

/-- The `TYPE_MOD` dispatch loop of the master (miner.cpp:443-453):
`for (base = primeIndex; base < nPrimes; base += incr)` push the job
`[base, min(nPrimes, base+incr))`.  Fuel-indexed; `none` models
non-termination within the given fuel.  Returns the pushed
`(modWork.start, modWork.end)` pairs in order. -/
def modJobsF (nP incr : Nat) : Nat → Nat → Option (List (Nat × Nat))
  | 0, base => if base < nP then none else some []
  | fuel + 1, base =>
    if base < nP then
      (modJobsF nP incr fuel (base + incr)).map
        (fun js => (base, min nP (base + incr)) :: js)
    else some []

/-- The `n_workers` counter incremented once per pushed job
(miner.cpp:446, 452); the master then pops `workerDoneQueue` exactly
`n_workers` times (miner.cpp:454-455). -/
def modWorkersF (nP incr : Nat) : Nat → Nat → Option Nat
  | 0, base => if base < nP then none else some 0
  | fuel + 1, base =>
    if base < nP then
      (modWorkersF nP incr fuel (base + incr)).map (· + 1)
    else some 0

/-- Termination of the dispatch loop: some fuel suffices. -/
def modDispatchHalts (m nP incr : Nat) : Prop :=
  ∃ fuel js, modJobsF nP incr fuel m = some js

theorem modJobsF_stuck_aux : ∀ fuel, modJobsF 62 0 fuel 40 = none := by
  intro fuel
  induction fuel with
  | zero => rw [modJobsF, if_pos (by norm_num)]
  | succ fuel ih =>
    rw [modJobsF, if_pos (by norm_num)]
    rw [ih]
    rfl

/-- Counterexample to C8 as stated: with a prime table of 62 primes (for
example `sieveMax = 300`, which the startup checks accept) the chunk size
`incr = nPrimes/128 = 62/128 = 0` and the dispatch loop starting at
`primeIndex = primorialNumber = 40` never terminates: `base += 0` makes no
progress.  The claim "for every configuration the loop terminates" is
false. -/
theorem modDispatch_not_halting : ¬ modDispatchHalts 40 62 (62 / 128) := by
  rintro ⟨fuel, js, h⟩
  rw [show (62:Nat) / 128 = 0 from by norm_num] at h
  rw [modJobsF_stuck_aux fuel] at h
  exact Option.noConfusion h

theorem modJobsF_partition_aux (nP incr : Nat) (hincr : 1 ≤ incr) :
    ∀ (fuel base : Nat), nP ≤ base + fuel →
      ∃ js, modJobsF nP incr fuel base = some js ∧
        modWorkersF nP incr fuel base = some js.length ∧
        (∀ i, (js.countP (fun se => decide (se.1 ≤ i) && decide (i < se.2)))
          = if base ≤ i ∧ i < nP then 1 else 0) := by
  intro fuel
  induction fuel with
  | zero =>
    intro base hb
    rw [modJobsF, if_neg (by omega), modWorkersF, if_neg (by omega)]
    refine ⟨[], rfl, rfl, ?_⟩
    intro i
    rw [if_neg (by omega)]
    rfl
  | succ fuel ih =>
    intro base hb
    by_cases hbase : base < nP
    · obtain ⟨js, hjs, hw, hcount⟩ := ih (base + incr) (by omega)
      refine ⟨(base, min nP (base + incr)) :: js, ?_, ?_, ?_⟩
      · rw [modJobsF, if_pos hbase, hjs]
        rfl
      · rw [modWorkersF, if_pos hbase, hw]
        rfl
      · intro i
        rw [List.countP_cons, hcount i]
        simp only [Bool.and_eq_true, decide_eq_true_eq]
        rcases le_total nP (base + incr) with hc | hc
        · rw [min_eq_left hc]
          split_ifs <;> omega
        · rw [min_eq_right hc]
          split_ifs <;> omega
    · rw [modJobsF, if_neg hbase, modWorkersF, if_neg hbase]
      refine ⟨[], rfl, rfl, ?_⟩
      intro i
      rw [if_neg (by omega)]
      rfl

/-- C8 (amended): whenever the chunk size `incr = nPrimes/128` is at least
1 — that is, `nPrimes ≥ 128` — the dispatch loop terminates (fuel
`nPrimes + 1` suffices from any starting index), the pushed `TYPE_MOD`
jobs cover every prime index in `[m, nPrimes)` exactly once, and the
master pops exactly one `workerDoneQueue` token per pushed job
(`n_workers` equals the number of jobs).  When `nPrimes < 128` and
`m < nPrimes` the loop does not terminate
(`modDispatch_not_halting`). -/
theorem mod_dispatch_partition (m nP : Nat) (h128 : 128 ≤ nP) :
    ∃ js, modJobsF nP (nP / 128) (nP + 1) m = some js ∧
      modWorkersF nP (nP / 128) (nP + 1) m = some js.length ∧
      (∀ i, (js.countP (fun se => decide (se.1 ≤ i) && decide (i < se.2)))
        = if m ≤ i ∧ i < nP then 1 else 0) := by
  have hincr : 1 ≤ nP / 128 := (Nat.one_le_div_iff (by norm_num)).mpr h128
  exact modJobsF_partition_aux nP (nP / 128) hincr (nP + 1) m (by omega)

/-- Witness for C8 at `m = 40`, `nPrimes = 128`. -/
theorem mod_dispatch_partition_witness :
    (128 ≤ 128) ∧
    (∃ js, modJobsF 128 (128 / 128) (128 + 1) 40 = some js ∧
      modWorkersF 128 (128 / 128) (128 + 1) 40 = some js.length ∧
      (∀ i, (js.countP (fun se => decide (se.1 ≤ i) && decide (i < se.2)))
        = if 40 ≤ i ∧ i < 128 then 1 else 0)) :=
  ⟨by norm_num, mod_dispatch_partition 40 128 (by norm_num)⟩

/-- Structural floor-log2, modelling `63 - __builtin_clzll(sb)` for a
nonzero 64-bit word (miner.cpp:553-554): with fuel at least the bit width,
`log2F fuel n` is the index of the highest set bit of `n`. -/
def log2F : Nat → Nat → Nat
  | 0, _ => 0
  | fuel + 1, n => if n < 2 then 0 else log2F fuel (n / 2) + 1

theorem log2F_spec : ∀ (fuel n : Nat), 1 ≤ n → n < 2 ^ fuel →
    2 ^ log2F fuel n ≤ n ∧ n < 2 ^ (log2F fuel n + 1) := by
  intro fuel
  induction fuel with
  | zero => intro n h1 h2; omega
  | succ fuel ih =>
    intro n h1 h2
    rw [log2F]
    split
    · rename_i hn2
      norm_num
      omega
    · rename_i hn2
      have hdm := Nat.div_add_mod n 2
      have hrec := ih (n / 2) (by omega) (by
        have : (2:Nat) ^ (fuel + 1) = 2 * 2 ^ fuel := by ring
        omega)
      set L := log2F fuel (n / 2)
      have e1 : (2:Nat) ^ (L + 1) = 2 * 2 ^ L := by ring
      have e2 : (2:Nat) ^ (L + 1 + 1) = 2 * 2 ^ (L + 1) := by ring
      omega

/-- The extraction loop over one (complemented) sieve word
(miner.cpp:545-576): while `sb` is nonzero, take the highest set bit
`63 - clz(sb)`, clear it (`sb &= ~(1 << (63 - highsb))`), and collect the
bit position.  Fuel-indexed; the source kills the process after 65
iterations (miner.cpp:548-552) and a 64-bit word needs at most 64. -/
def extractBitsF : Nat → Nat → List Nat
  | 0, _ => []
  | fuel + 1, sb =>
    if sb = 0 then []
    else
      log2F 64 sb :: extractBitsF fuel (sb - 2 ^ log2F 64 sb)

/-- Splitting off the top bit: for `r < 2^hb`, bit `x` of `2^hb + r` is
set iff `x = hb` or bit `x` of `r` is set. -/
theorem testBit_top_add (hb r x : Nat) (hr : r < 2 ^ hb) :
    ((2 ^ hb + r).testBit x = true) ↔ (x = hb ∨ r.testBit x = true) := by
  rcases Nat.lt_trichotomy x hb with hx | rfl | hx
  · have hdvd : (2:Nat) ^ x ∣ 2 ^ hb := pow_dvd_pow 2 (le_of_lt hx)
    have hdiv : (2 ^ hb + r) / 2 ^ x = 2 ^ (hb - x) + r / 2 ^ x := by
      rw [Nat.add_div_of_dvd_right hdvd]
      congr 1
      rw [Nat.pow_div (le_of_lt hx) (by norm_num)]
    have heven : (2:Nat) ^ (hb - x) % 2 = 0 := by
      have : hb - x = (hb - x - 1) + 1 := by omega
      rw [this, pow_succ, Nat.mul_mod_left]
    rw [Nat.testBit_to_div_mod, Nat.testBit_to_div_mod, hdiv]
    have hxne : ¬ (x = hb) := by omega
    simp only [hxne, false_or]
    constructor
    · intro h
      have := of_decide_eq_true h
      exact decide_eq_true (by omega)
    · intro h
      have := of_decide_eq_true h
      exact decide_eq_true (by omega)
  · have hdiv : (2 ^ x + r) / 2 ^ x = 1 + r / 2 ^ x := by
      rw [Nat.add_div_of_dvd_right (dvd_refl _), Nat.div_self (by positivity)]
    have hr0 : r / 2 ^ x = 0 := Nat.div_eq_of_lt hr
    rw [Nat.testBit_to_div_mod, hdiv, hr0]
    simp
  · have hlt : 2 ^ hb + r < 2 ^ x := by
      have h1 : (2:Nat) ^ (hb + 1) ≤ 2 ^ x := Nat.pow_le_pow_right (by norm_num) (by omega)
      have h2 : (2:Nat) ^ (hb + 1) = 2 ^ hb + 2 ^ hb := by ring
      omega
    rw [Nat.testBit_eq_false_of_lt hlt]
    have hr2 : r.testBit x = false :=
      Nat.testBit_eq_false_of_lt (by
        have : (2:Nat) ^ hb ≤ 2 ^ x := Nat.pow_le_pow_right (by norm_num) (by omega)
        omega)
    rw [hr2]
    simp
    omega

/-- The extraction loop collects exactly the set-bit positions of `sb`. -/
theorem extractBitsF_mem : ∀ (fuel sb : Nat), sb < 2 ^ fuel → fuel ≤ 64 →
    ∀ x, x ∈ extractBitsF fuel sb ↔ sb.testBit x = true := by
  intro fuel
  induction fuel with
  | zero =>
    intro sb hsb _ x
    interval_cases sb
    simp [extractBitsF]
  | succ fuel ih =>
    intro sb hsb hle x
    rw [extractBitsF]
    split
    · rename_i h0
      subst h0
      simp
    · rename_i h0
      have h1 : 1 ≤ sb := by omega
      have hsb64 : sb < 2 ^ 64 :=
        lt_of_lt_of_le hsb (Nat.pow_le_pow_right (by norm_num) hle)
      obtain ⟨hlo, hhi⟩ := log2F_spec 64 sb h1 hsb64
      set hb := log2F 64 sb with hhb
      have hhblt : hb < fuel + 1 := by
        by_contra hcon
        have : (2:Nat) ^ (fuel + 1) ≤ 2 ^ hb := Nat.pow_le_pow_right (by norm_num) (by omega)
        omega
      have hrlt : sb - 2 ^ hb < 2 ^ hb := by
        have : (2:Nat) ^ (hb + 1) = 2 ^ hb + 2 ^ hb := by ring
        omega
      have hrfuel : sb - 2 ^ hb < 2 ^ fuel := by
        have : (2:Nat) ^ hb ≤ 2 ^ fuel := Nat.pow_le_pow_right (by norm_num) (by omega)
        omega
      have hsplit : sb = 2 ^ hb + (sb - 2 ^ hb) := by omega
      rw [List.mem_cons, ih (sb - 2 ^ hb) hrfuel (by omega) x]
      rw [show sb.testBit x = (2 ^ hb + (sb - 2 ^ hb)).testBit x from by rw [← hsplit]]
      rw [show (x = hb ∨ (sb - 2 ^ hb).testBit x = true)
            ↔ ((2 ^ hb + (sb - 2 ^ hb)).testBit x = true) from
        (testBit_top_add hb (sb - 2 ^ hb) x hrlt).symm]

/-- Candidate extraction from one sieve word (miner.cpp:541-559): the word
is complemented (`sb = ~sieve64[b]`, i.e. `2^64 - 1 - w` for a 64-bit
`w`), positions are read from the most significant set bit down, and each
emitted candidate index is `b*64 + (63 - clz)`. -/
def extractWord (b w : Nat) : List Nat :=
  (extractBitsF 64 (2 ^ 64 - 1 - w)).map (fun pos => b * 64 + pos)

/-- Candidate extraction over the whole bitmap (miner.cpp:542-577): scan
the words in order, emitting `extractWord` for each; every emitted index
is appended to the pending `TYPE_CHECK` job (miner.cpp:559-560). -/
def extractAll : Nat → List Nat → List Nat
  | _, [] => []
  | b, w :: ws => extractWord b w ++ extractAll (b + 1) ws

theorem mem_extractWord (b w x : Nat) (hw : w < 2 ^ 64) :
    x ∈ extractWord b w ↔
      ∃ t, t < 64 ∧ x = b * 64 + t ∧ (2 ^ 64 - 1 - w).testBit t = true := by
  unfold extractWord
  rw [List.mem_map]
  constructor
  · rintro ⟨pos, hpos, rfl⟩
    have hsb : 2 ^ 64 - 1 - w < 2 ^ 64 := by omega
    have := (extractBitsF_mem 64 _ hsb (le_refl _) pos).mp hpos
    refine ⟨pos, ?_, rfl, this⟩
    by_contra hcon
    rw [Nat.testBit_eq_false_of_lt
      (lt_of_lt_of_le hsb (Nat.pow_le_pow_right (by norm_num) (by omega)))] at this
    exact Bool.noConfusion this
  · rintro ⟨t, ht, rfl, hbit⟩
    have hsb : 2 ^ 64 - 1 - w < 2 ^ 64 := by omega
    exact ⟨t, (extractBitsF_mem 64 _ hsb (le_refl _) t).mpr hbit, rfl⟩

theorem mem_extractAll (x : Nat) : ∀ (ws : List Nat) (b : Nat),
    x ∈ extractAll b ws ↔
      ∃ j, j < ws.length ∧ x ∈ extractWord (b + j) (ws.getD j 0) := by
  intro ws
  induction ws with
  | nil => intro b; simp [extractAll]
  | cons w ws ih =>
    intro b
    rw [extractAll, List.mem_append, ih (b + 1)]
    constructor
    · rintro (h | ⟨j, hj, hmem⟩)
      · exact ⟨0, by simp, by simpa using h⟩
      · refine ⟨j + 1, by simpa using hj, ?_⟩
        rw [show b + (j + 1) = b + 1 + j from by ring]
        simpa using hmem
    · rintro ⟨j, hj, hmem⟩
      match j with
      | 0 => exact Or.inl (by simpa using hmem)
      | Nat.succ j =>
        right
        refine ⟨j, by simpa using hj, ?_⟩
        rw [show b + 1 + j = b + (j + 1) from by ring]
        simpa using hmem

/-- Bit `t` of the 64-bit complement `~w = 2^64 - 1 - w`: set exactly when
bit `t` of `w` is clear (for `t < n`, `w < 2^n`). -/
theorem testBit_allOnes_sub : ∀ (n w t : Nat), w < 2 ^ n → t < n →
    (((2 ^ n - 1 - w).testBit t = true) ↔ (w.testBit t = false)) := by
  intro n
  induction n with
  | zero => intro w t _ ht; omega
  | succ n ih =>
    intro w t hw ht
    have h2n : (2:Nat) ^ (n + 1) = 2 * 2 ^ n := by ring
    match t with
    | 0 =>
      rw [Nat.testBit_to_div_mod, Nat.testBit_to_div_mod]
      simp only [pow_zero, Nat.div_one, decide_eq_true_eq, decide_eq_false_iff_not]
      omega
    | Nat.succ t =>
      have hdiv : (2 ^ (n + 1) - 1 - w) / 2 = 2 ^ n - 1 - w / 2 := by omega
      rw [Nat.testBit_succ, Nat.testBit_succ, hdiv]
      exact ih (w / 2) t (by omega) (by omega)

/-- C5 (amended): the candidate extractor emits index 0 exactly when bit 0
of word 0 of the merged sieve bitmap is clear — there is no exclusion of
index 0 in the extraction loop (miner.cpp:542-560).  What never touches
position 0 is the pending-ring marking (`add_to_pending`, miner.cpp:185,
see `processSieve_refines`): position 0 is the "empty slot" value, so the
sparse and once-only strata never set bit 0. -/
theorem extraction_emits_zero_iff (w : Nat) (ws : List Nat) (hw : w < 2 ^ 64) :
    0 ∈ extractAll 0 (w :: ws) ↔ w % 2 = 0 := by
  rw [mem_extractAll 0 (w :: ws) 0]
  constructor
  · rintro ⟨j, hj, hmem⟩
    unfold extractWord at hmem
    rw [List.mem_map] at hmem
    obtain ⟨pos, hpos, heq⟩ := hmem
    have hj0 : j = 0 ∧ pos = 0 := by
      constructor <;> omega
    obtain ⟨rfl, rfl⟩ := hj0
    simp only [List.getD_cons_zero] at hpos
    have hbit := (extractBitsF_mem 64 (2 ^ 64 - 1 - w) (by omega) (le_refl _) 0).mp hpos
    have := (testBit_allOnes_sub 64 w 0 hw (by norm_num)).mp hbit
    rw [Nat.testBit_to_div_mod] at this
    simp only [pow_zero, Nat.div_one, decide_eq_false_iff_not] at this
    omega
  · intro hpar
    refine ⟨0, by simp, ?_⟩
    unfold extractWord
    rw [List.mem_map]
    refine ⟨0, ?_, by simp⟩
    simp only [List.getD_cons_zero]
    apply (extractBitsF_mem 64 (2 ^ 64 - 1 - w) (by omega) (le_refl _) 0).mpr
    apply (testBit_allOnes_sub 64 w 0 hw (by norm_num)).mpr
    rw [Nat.testBit_to_div_mod]
    simp only [pow_zero, Nat.div_one, decide_eq_false_iff_not]
    omega

/-- Counterexample to C5 as stated: on a full-sized merged bitmap whose
only clear bit is bit 0 of word 0 (every position marked except position
0), the extractor does emit index 0 and append it to the `TYPE_CHECK`
job.  "Position 0 is never appended" is false for this code. -/
theorem extraction_emits_zero_concrete :
    0 ∈ extractAll 0
      ((2 ^ 64 - 2) :: List.replicate (sieveWords - 1) (2 ^ 64 - 1)) := by
  rw [extractAll]
  apply List.mem_append_left
  decide

/-- Witness for C5 (amended) at a single-word bitmap with bit 0 clear. -/
theorem extraction_emits_zero_iff_witness :
    ((2 ^ 64 - 2 : Nat) < 2 ^ 64) ∧
    (0 ∈ extractAll 0 [2 ^ 64 - 2] ↔ (2 ^ 64 - 2) % 2 = 0) :=
  ⟨by norm_num, extraction_emits_zero_iff (2 ^ 64 - 2) [] (by norm_num)⟩

/-- The Fermat base-2 test run by the verifier (miner.cpp:328-331,
337-340): `r = 2^(v-1) mod v`; pass iff `r = 1`. -/
def fermatTest (v : Nat) : Bool := 2 ^ (v - 1) % v == 1

/-- The sibling loop of a TYPE_CHECK candidate (miner.cpp:336-345):
starting from a value that already passed, repeatedly add the next tuple
increment, re-test, and count consecutive passes, stopping at the first
failure. -/
def chainCount (n : Nat) : List Nat → Nat
  | [] => 0
  | d :: rest =>
    if fermatTest (n + d) then 1 + chainCount (n + d) rest else 0

/-- The tested candidate value (miner.cpp:318-324):
`n = P·(loop·sieveSize) + P·indexes[idx] + R + T`; the inner product
`job.testWork.loop * riecoin_sieveSize` is a uint32 multiplication, hence
the `% 2^32`. -/
def candidateN (tar rem P loop j : Nat) : Nat :=
  P * (loop * sieveSize % 2 ^ 32) + P * j + rem + tar

/-- Value of the 32-byte little-endian `nOffset` buffer (miner.cpp:350-353):
zeroed, then the low `min(4, _mp_size)` 64-bit limbs of the offset are
copied in order; limbs at or above `_mp_size` are zero, so copying the
first four limbs yields the low 256 bits of the offset. -/
def nOffsetValue (off : Nat) : Nat :=
  ((List.range 4).map (fun d => off / 2 ^ (64 * d) % 2 ^ 64 * 2 ^ (64 * d))).sum

/-- Processing of one index of a TYPE_CHECK job (miner.cpp:315-356):
compute `n`, the offset `n - zTarget` (miner.cpp:326), run the Fermat
chain, and `submitWork(verify_block.gwd, nOffset, nPrimes)` iff at least
`arguments.tuples` members passed; `some (bufferValue, count)` models the
submission, `none` the silent skip. -/
def verifyCandidate (th tar rem P loop j : Nat) : Option (Nat × Nat) :=
  if fermatTest (candidateN tar rem P loop j) then
    if 1 + chainCount (candidateN tar rem P loop j) (primeTupleOffset.drop 1) < th
    then none
    else some (nOffsetValue (candidateN tar rem P loop j - tar),
      1 + chainCount (candidateN tar rem P loop j) (primeTupleOffset.drop 1))
  else none

theorem nOffsetValue_eq (off : Nat) : nOffsetValue off = off % 2 ^ 256 := by
  show off / 2 ^ (64 * 0) % 2 ^ 64 * 2 ^ (64 * 0)
      + (off / 2 ^ (64 * 1) % 2 ^ 64 * 2 ^ (64 * 1)
      + (off / 2 ^ (64 * 2) % 2 ^ 64 * 2 ^ (64 * 2)
      + (off / 2 ^ (64 * 3) % 2 ^ 64 * 2 ^ (64 * 3) + 0))) = off % 2 ^ 256
  norm_num
  omega

theorem chainCount_spec (ds : List Nat) : ∀ (m : Nat),
    (∀ t, t < chainCount m ds →
      fermatTest (m + (ds.take (t + 1)).sum) = true) ∧
    (chainCount m ds < ds.length →
      fermatTest (m + (ds.take (chainCount m ds + 1)).sum) = false) ∧
    chainCount m ds ≤ ds.length := by
  induction ds with
  | nil =>
    intro m
    refine ⟨?_, ?_, ?_⟩ <;> simp [chainCount]
  | cons d rest ih =>
    intro m
    rw [chainCount]
    split
    · rename_i hpass
      obtain ⟨ih1, ih2, ih3⟩ := ih (m + d)
      refine ⟨?_, ?_, by simp only [List.length_cons]; omega⟩
      · intro t ht
        match t with
        | 0 => simpa using hpass
        | Nat.succ t =>
          have h1 := ih1 t (by omega)
          rw [List.take_succ_cons, List.sum_cons]
          rw [show m + (d + (rest.take (t + 1)).sum)
            = m + d + (rest.take (t + 1)).sum from by ring]
          exact h1
      · intro hlt
        simp only [List.length_cons] at hlt
        have h2 := ih2 (by omega)
        rw [show 1 + chainCount (m + d) rest + 1
          = (chainCount (m + d) rest + 1) + 1 from by omega]
        rw [List.take_succ_cons, List.sum_cons]
        rw [show m + (d + (rest.take (chainCount (m + d) rest + 1)).sum)
          = m + d + (rest.take (chainCount (m + d) rest + 1)).sum from by ring]
        exact h2
    · rename_i hfail
      have hff : fermatTest (m + d) = false := by
        cases h : fermatTest (m + d)
        · rfl
        · exact absurd h hfail
      refine ⟨by omega, ?_, by omega⟩
      intro _
      simp only [List.take_succ_cons, List.take_zero, List.sum_cons,
        List.sum_nil, Nat.add_zero]
      exact hff

theorem cumBias_succ_drop (f : Nat) :
    cumBias (f + 1) = ((primeTupleOffset.drop 1).take (f + 1)).sum := by
  rw [cumBias, primeTupleOffset]
  rw [show ([0, 4, 2, 4, 2, 4] : List Nat) = 0 :: [4, 2, 4, 2, 4] from rfl]
  rw [List.take_succ_cons, List.sum_cons, List.drop_succ_cons, List.drop_zero]
  omega

/-- C3: every submission `submitShare(handle, off, k)` performed by
`verify_thread` satisfies: `k ≥ tuplesThreshold`, the buffer holds the low
bytes of `n - zTarget` little-endian (value `(n - zTarget) mod 2^256`,
remaining bytes zero) where `n = zTarget + R + (loop·sieveSize + j)·P` is
the tested candidate, `n` and its `k - 1` biased siblings (cumulative
biases 4, 6, 10, 12, 16, in order) each pass the Fermat base-2 test
`2^(v-1) ≡ 1 (mod v)`, and the chain stopped at the first failure. -/
theorem submitShare_spec (th tar rem P loop j off k : Nat)
    (hloop : loop < maxiter)
    (hsub : verifyCandidate th tar rem P loop j = some (off, k)) :
    th ≤ k ∧ 1 ≤ k ∧ k ≤ 6 ∧
    candidateN tar rem P loop j = tar + rem + (loop * sieveSize + j) * P ∧
    off = (candidateN tar rem P loop j - tar) % 2 ^ 256 ∧
    (∀ t, t < k → fermatTest (candidateN tar rem P loop j + cumBias t) = true) ∧
    (k < 6 → fermatTest (candidateN tar rem P loop j + cumBias k) = false) := by
  have hloop32 : loop < 32 := by
    have h32 : maxiter = 32 := by norm_num [maxiter, maxIncrements, sieveSize]
    omega
  have hS : loop * sieveSize % 2 ^ 32 = loop * sieveSize := by
    apply Nat.mod_eq_of_lt
    have h1 : loop * sieveSize ≤ 31 * sieveSize :=
      Nat.mul_le_mul_right _ (by omega)
    have h31 : (31 : Nat) * sieveSize < 2 ^ 32 := by norm_num [sieveSize]
    omega
  have hcand : candidateN tar rem P loop j
      = tar + rem + (loop * sieveSize + j) * P := by
    rw [candidateN, hS]
    ring
  set n := candidateN tar rem P loop j with hn
  unfold verifyCandidate at hsub
  rw [← hn] at hsub
  split at hsub
  · rename_i hpass
    split at hsub
    · exact Option.noConfusion hsub
    · rename_i hth
      injection hsub with hsub
      injection hsub with hoff hk
      obtain ⟨c1, c2, c3⟩ := chainCount_spec (primeTupleOffset.drop 1) n
      have hds : (primeTupleOffset.drop 1).length = 5 := by
        norm_num [primeTupleOffset]
      refine ⟨by omega, by omega, by omega, hcand, ?_, ?_, ?_⟩
      · rw [← hoff, nOffsetValue_eq]
      · intro t ht
        match t with
        | 0 =>
          have : cumBias 0 = 0 := by norm_num [cumBias, primeTupleOffset]
          rw [this, Nat.add_zero]
          exact hpass
        | Nat.succ t =>
          rw [cumBias_succ_drop t]
          exact c1 t (by omega)
      · intro hk6
        have hc5 : chainCount n (primeTupleOffset.drop 1) < 5 := by omega
        have := c2 (by omega)
        rw [show k = (k - 1) + 1 from by omega, cumBias_succ_drop (k - 1)]
        rw [show k - 1 = chainCount n (primeTupleOffset.drop 1) from by omega]
        exact this
  · exact Option.noConfusion hsub

/-- Witness for C3: threshold 6, target 3, remainder 4, primorial 2310,
loop 0, index 0; the candidate is the known sextuplet base `n = 7` with
members 7, 11, 13, 17, 19, 23 all passing Fermat base-2, submitted with
`k = 6` and offset buffer value 4. -/
theorem submitShare_spec_witness :
    ((0:Nat) < maxiter ∧ verifyCandidate 6 3 4 2310 0 0 = some (4, 6)) ∧
    (6 ≤ 6 ∧ (1:Nat) ≤ 6 ∧ (6:Nat) ≤ 6 ∧
      candidateN 3 4 2310 0 0 = 3 + 4 + (0 * sieveSize + 0) * 2310 ∧
      (4:Nat) = (candidateN 3 4 2310 0 0 - 3) % 2 ^ 256 ∧
      (∀ t, t < 6 → fermatTest (candidateN 3 4 2310 0 0 + cumBias t) = true) ∧
      ((6:Nat) < 6 → fermatTest (candidateN 3 4 2310 0 0 + cumBias 6) = false)) :=
  ⟨⟨by norm_num [maxiter, maxIncrements, sieveSize], by decide⟩,
    submitShare_spec 6 3 4 2310 0 0 4 6
      (by norm_num [maxiter, maxIncrements, sieveSize]) (by decide)⟩

/-- State of the pending prefetch ring together with the marks made so far
in one bitmap: `pending` is the 16-slot ring (`PENDING_SIZE = 16`,
miner.cpp:175), `pos` the current slot, and `marks` the positions whose
sieve bit has been set so far (most recent first). -/
structure PendState where
  pending : List Nat
  pos : Nat
  marks : List Nat

/-- `init_pending` (miner.cpp:177-180) with position 0 and an empty
bitmap. -/
def pendInit : PendState := ⟨List.replicate 16 0, 0, []⟩

/-- `add_to_pending` (miner.cpp:182-192): prefetch (no memory effect),
read the slot at `pos`; if it holds a nonzero position, set that bit;
store the new entry in the slot; `pos++; pos &= 0xf` (that is,
`(pos + 1) % 16`). -/
def addToPending (st : PendState) (ent : Nat) : PendState :=
  { pending := st.pending.set st.pos ent,
    pos := (st.pos + 1) % 16,
    marks := if st.pending.getD st.pos 0 ≠ 0
             then st.pending.getD st.pos 0 :: st.marks else st.marks }

/-- The flush loop after `process_sieve`'s main loop (miner.cpp:276-282)
and after the once-only application (miner.cpp:527-533): mark every
nonzero ring entry.  Returns all marks made on the bitmap. -/
def flushPending (st : PendState) : List Nat :=
  st.pending.foldl (fun m old => if old ≠ 0 then old :: m else m) st.marks

/-- Well-formedness of the ring: 16 slots and an in-range position. -/
def pendWF (st : PendState) : Prop := st.pending.length = 16 ∧ st.pos < 16

theorem pendWF_init : pendWF pendInit := by constructor <;> simp [pendInit]

theorem pendWF_add (st : PendState) (ent : Nat) (h : pendWF st) :
    pendWF (addToPending st ent) := by
  obtain ⟨h1, h2⟩ := h
  constructor
  · simp [addToPending, h1]
  · simp [addToPending]
    omega

theorem flush_fold_mem (x : Nat) : ∀ (l m : List Nat),
    (x ∈ l.foldl (fun m old => if old ≠ 0 then old :: m else m) m
      ↔ x ∈ m ∨ (x ∈ l ∧ x ≠ 0)) := by
  intro l
  induction l with
  | nil => intro m; simp
  | cons d l ih =>
    intro m
    rw [List.foldl_cons, ih]
    by_cases hd : d = 0
    · subst hd
      simp only [ne_eq, not_true_eq_false, if_false, List.mem_cons]
      constructor
      · rintro (h | h)
        · exact Or.inl h
        · exact Or.inr ⟨Or.inr h.1, h.2⟩
      · rintro (h | ⟨(h | h), hx⟩)
        · exact Or.inl h
        · exact absurd hx (by simp [h])
        · exact Or.inr ⟨h, hx⟩
    · simp only [ne_eq, hd, not_false_eq_true, if_true, List.mem_cons]
      constructor
      · rintro ((h | h) | h)
        · exact Or.inr ⟨Or.inl h, by omega⟩
        · exact Or.inl h
        · exact Or.inr ⟨Or.inr h.1, h.2⟩
      · rintro (h | ⟨(h | h), hx⟩)
        · exact Or.inl (Or.inr h)
        · exact Or.inl (Or.inl h)
        · exact Or.inr ⟨h, hx⟩

theorem mem_flushPending (x : Nat) (st : PendState) :
    x ∈ flushPending st ↔ x ∈ st.marks ∨ (x ∈ st.pending ∧ x ≠ 0) :=
  flush_fold_mem x st.pending st.marks

/-- Adding one entry to the ring moves exactly the nonzero entries around:
the eventual flush of the new state marks the old flush set plus the new
entry (if nonzero). -/
theorem mem_flush_add (st : PendState) (ent x : Nat) (h : pendWF st) :
    x ∈ flushPending (addToPending st ent)
      ↔ x ∈ flushPending st ∨ (x = ent ∧ ent ≠ 0) := by
  obtain ⟨hlen, hpos⟩ := h
  have hpos2 : st.pos < st.pending.length := by omega
  have hdecomp : st.pending
      = st.pending.take st.pos ++ st.pending.getD st.pos 0 :: st.pending.drop (st.pos + 1) := by
    conv_lhs => rw [← List.take_append_drop st.pos st.pending]
    congr 1
    rw [List.getD_eq_getElem st.pending 0 hpos2]
    exact List.drop_eq_getElem_cons hpos2
  have hset : st.pending.set st.pos ent
      = st.pending.take st.pos ++ ent :: st.pending.drop (st.pos + 1) :=
    List.set_eq_take_cons_drop ent hpos2
  rw [mem_flushPending, mem_flushPending]
  show (x ∈ (addToPending st ent).marks ∨ (x ∈ st.pending.set st.pos ent ∧ x ≠ 0))
    ↔ _
  have hmarks : (addToPending st ent).marks
      = if st.pending.getD st.pos 0 ≠ 0
        then st.pending.getD st.pos 0 :: st.marks else st.marks := rfl
  rw [hmarks, hset]
  conv_rhs => rw [hdecomp]
  by_cases hold : st.pending.getD st.pos 0 = 0
  · simp only [hold, ne_eq, not_true_eq_false, if_false, List.mem_append,
      List.mem_cons]
    constructor
    · rintro (h | ⟨(h | h | h), hx⟩)
      · exact Or.inl (Or.inl h)
      · exact Or.inl (Or.inr ⟨Or.inl h, hx⟩)
      · exact Or.inr ⟨h, by omega⟩
      · exact Or.inl (Or.inr ⟨Or.inr (Or.inr h), hx⟩)
    · rintro ((h | ⟨(h | h | h), hx⟩) | ⟨h, hx⟩)
      · exact Or.inl h
      · exact Or.inr ⟨Or.inl h, hx⟩
      · exact absurd hx (by simp [h, hold])
      · exact Or.inr ⟨Or.inr (Or.inr h), hx⟩
      · exact Or.inr ⟨Or.inr (Or.inl h), by omega⟩
  · simp only [ne_eq, hold, not_false_eq_true, if_true, List.mem_append,
      List.mem_cons]
    constructor
    · rintro ((h | h) | ⟨(h | h | h), hx⟩)
      · exact Or.inl (Or.inr ⟨Or.inr (Or.inl h), by omega⟩)
      · exact Or.inl (Or.inl h)
      · exact Or.inl (Or.inr ⟨Or.inl h, hx⟩)
      · exact Or.inr ⟨h, by omega⟩
      · exact Or.inl (Or.inr ⟨Or.inr (Or.inr h), hx⟩)
    · rintro ((h | ⟨(h | h | h), hx⟩) | ⟨h, hx⟩)
      · exact Or.inl (Or.inr h)
      · exact Or.inr ⟨Or.inl h, hx⟩
      · exact Or.inl (Or.inl h)
      · exact Or.inr ⟨Or.inr (Or.inr h), hx⟩
      · exact Or.inr ⟨Or.inr (Or.inl h), by omega⟩

/-- Flushing after a whole sequence of `add_to_pending` calls marks the
old flush set plus every nonzero pushed entry. -/
theorem mem_flush_foldadd (ents : List Nat) : ∀ (st : PendState) (x : Nat),
    pendWF st →
    (x ∈ flushPending (ents.foldl addToPending st)
      ↔ x ∈ flushPending st ∨ (x ∈ ents ∧ x ≠ 0)) := by
  induction ents with
  | nil => intro st x _; simp
  | cons e ents ih =>
    intro st x hwf
    rw [List.foldl_cons, ih (addToPending st e) x (pendWF_add st e hwf),
      mem_flush_add st e x hwf, List.mem_cons]
    constructor
    · rintro ((h | ⟨h1, h2⟩) | ⟨h, hx⟩)
      · exact Or.inl h
      · exact Or.inr ⟨Or.inl h1, by omega⟩
      · exact Or.inr ⟨Or.inr h, hx⟩
    · rintro (h | ⟨(h | h), hx⟩)
      · exact Or.inl (Or.inl h)
      · exact Or.inl (Or.inr ⟨h, by omega⟩)
      · exact Or.inr ⟨h, hx⟩

theorem pendWF_foldadd (ents : List Nat) : ∀ (st : PendState),
    pendWF st → pendWF (ents.foldl addToPending st) := by
  induction ents with
  | nil => intro st h; exact h
  | cons e ents ih =>
    intro st h
    rw [List.foldl_cons]
    exact ih _ (pendWF_add st e h)

theorem flushPending_init : flushPending pendInit = [] := by decide

/-- The inner while loop of `process_sieve` (miner.cpp:268-272): like
`slotRunF`, but each touched position goes through `add_to_pending`
instead of being marked directly. -/
def slotPendF (p : Nat) : Nat → PendState → Nat → Option (PendState × Nat)
  | 0, st, o => if o < sieveSize then none else some (st, o - sieveSize)
  | fuel + 1, st, o =>
    if o < sieveSize then slotPendF p fuel (addToPending st o) (o + p)
    else some (st, o - sieveSize)

/-- The `f` loop of `process_sieve` (miner.cpp:267-273): run the six
slots of one prime in order, threading the pending ring; returns the new
offsets. -/
def sixSlotsPend (p : Nat) : PendState → List Nat → Option (PendState × List Nat)
  | st, [] => some (st, [])
  | st, o :: os =>
    (slotPendF p (sieveSize + 1) st o).bind fun r =>
      (sixSlotsPend p r.1 os).map fun r2 => (r2.1, r.2 :: r2.2)

/-- The prime loop of `process_sieve` (miner.cpp:264-274), over the primes
of the worker's range with their offset vectors. -/
def processSievePend : PendState → List (Nat × List Nat) → Option (PendState × List (Nat × List Nat))
  | st, [] => some (st, [])
  | st, (p, offs) :: ps =>
    (sixSlotsPend p st offs).bind fun r =>
      (processSievePend r.1 ps).map fun r2 => (r2.1, (p, r.2) :: r2.2)

/-- `process_sieve(sieve, start_i, end_i)` (miner.cpp:259-283): initialise
the ring, run the loops, flush.  Returns the positions whose bits were set
and the updated offset vectors. -/
def processSieve (ps : List (Nat × List Nat)) : Option (List Nat × List (Nat × List Nat)) :=
  (processSievePend pendInit ps).map fun r => (flushPending r.1, r.2)

/-- Reference sieve, following the claim's description: for each prime
and bias, directly set the bit of every offset below `sieveSize`, with
the same offset arithmetic (no pending ring).  Spec-side definition used
as the refinement target for `processSieve`. -/
def sixSlotsSpec (p : Nat) : List Nat → Option (List Nat × List Nat)
  | [] => some ([], [])
  | o :: os =>
    (slotRun p o).bind fun r =>
      (sixSlotsSpec p os).map fun r2 => (r.1 ++ r2.1, r.2 :: r2.2)

/-- Reference sieve over a prime range (spec-side, claim's words). -/
def processSieveSpec : List (Nat × List Nat) → Option (List Nat × List (Nat × List Nat))
  | [] => some ([], [])
  | (p, offs) :: ps =>
    (sixSlotsSpec p offs).bind fun r =>
      (processSieveSpec ps).map fun r2 => (r.1 ++ r2.1, (p, r.2) :: r2.2)

theorem slotPendF_eq (p : Nat) : ∀ (fuel o : Nat) (st : PendState),
    slotPendF p fuel st o
      = (slotRunF p fuel o).map (fun r => (r.1.foldl addToPending st, r.2)) := by
  intro fuel
  induction fuel with
  | zero =>
    intro o st
    rw [slotPendF, slotRunF]
    split
    · rfl
    · rfl
  | succ fuel ih =>
    intro o st
    rw [slotPendF, slotRunF]
    split
    · rw [ih (o + p) (addToPending st o)]
      rcases slotRunF p fuel (o + p) with _ | r
      · rfl
      · rfl
    · rfl

theorem sixSlotsPend_eq (p : Nat) : ∀ (offs : List Nat) (st : PendState),
    sixSlotsPend p st offs
      = (sixSlotsSpec p offs).map (fun r => (r.1.foldl addToPending st, r.2)) := by
  intro offs
  induction offs with
  | nil => intro st; rfl
  | cons o os ih =>
    intro st
    rw [sixSlotsPend, sixSlotsSpec, slotPendF_eq,
      show slotRunF p (sieveSize + 1) o = slotRun p o from rfl]
    rcases hso : slotRun p o with _ | r
    · rfl
    · show (sixSlotsPend p (r.1.foldl addToPending st) os).map
          (fun r2 => (r2.1, r.2 :: r2.2)) = _
      rw [ih]
      rcases sixSlotsSpec p os with _ | r2
      · rfl
      · show some _ = some _
        simp [List.foldl_append]

theorem processSievePend_eq : ∀ (ps : List (Nat × List Nat)) (st : PendState),
    processSievePend st ps
      = (processSieveSpec ps).map (fun r => (r.1.foldl addToPending st, r.2)) := by
  intro ps
  induction ps with
  | nil => intro st; rfl
  | cons pr ps ih =>
    intro st
    obtain ⟨p, offs⟩ := pr
    rw [processSievePend, processSieveSpec, sixSlotsPend_eq]
    rcases hso : sixSlotsSpec p offs with _ | r
    · rfl
    · show (processSievePend (r.1.foldl addToPending st) ps).map
          (fun r2 => (r2.1, (p, r.2) :: r2.2)) = _
      rw [ih]
      rcases processSieveSpec ps with _ | r2
      · rfl
      · show some _ = some _
        simp [List.foldl_append]

theorem sixSlotsSpec_ok (p : Nat) (hp : 1 ≤ p) : ∀ (offs : List Nat),
    ∃ ms os2, sixSlotsSpec p offs = some (ms, os2) := by
  intro offs
  induction offs with
  | nil => exact ⟨[], [], rfl⟩
  | cons o os ih =>
    obtain ⟨ms, os2, ih⟩ := ih
    obtain ⟨ms1, nx, hrun, _, _⟩ := slotRun_spec p o hp
    refine ⟨ms1 ++ ms, nx :: os2, ?_⟩
    rw [sixSlotsSpec, hrun]
    show (sixSlotsSpec p os).map _ = _
    rw [ih]
    rfl

theorem processSieveSpec_ok : ∀ (ps : List (Nat × List Nat)),
    (∀ pr ∈ ps, 1 ≤ pr.1) →
    ∃ ms ps2, processSieveSpec ps = some (ms, ps2) := by
  intro ps
  induction ps with
  | nil => intro _; exact ⟨[], [], rfl⟩
  | cons pr ps ih =>
    intro hp
    obtain ⟨ms, ps2, ih⟩ := ih (fun q hq => hp q (List.mem_cons_of_mem _ hq))
    obtain ⟨p, offs⟩ := pr
    obtain ⟨ms1, os2, hsix⟩ := sixSlotsSpec_ok p (hp (p, offs) (List.mem_cons_self _ _)) offs
    refine ⟨ms1 ++ ms, (p, os2) :: ps2, ?_⟩
    rw [processSieveSpec, hsix]
    show (processSieveSpec ps).map _ = _
    rw [ih]
    rfl

/-- C9: `process_sieve` with its 16-slot pending prefetch ring refines the
naive reference sieve.  For every starting offsets state and prime range
(all primes nonzero): both runs succeed, they leave identical final
offsets, and the bits set by `process_sieve` are exactly the bits of the
reference sieve except position 0, which `process_sieve` never sets (0 is
the ring's "empty slot" value). -/
theorem processSieve_refines (ps : List (Nat × List Nat))
    (hp : ∀ pr ∈ ps, 1 ≤ pr.1) :
    ∃ marks offs2 specMarks specOffs,
      processSieve ps = some (marks, offs2) ∧
      processSieveSpec ps = some (specMarks, specOffs) ∧
      offs2 = specOffs ∧
      (∀ x, x ∈ marks ↔ (x ∈ specMarks ∧ x ≠ 0)) ∧
      (0 : Nat) ∉ marks := by
  obtain ⟨specMarks, specOffs, hspec⟩ := processSieveSpec_ok ps hp
  have hpend := processSievePend_eq ps pendInit
  rw [hspec] at hpend
  have hps : processSieve ps
      = some (flushPending (specMarks.foldl addToPending pendInit), specOffs) := by
    rw [processSieve, hpend]
    rfl
  refine ⟨_, _, _, _, hps, hspec, rfl, ?_, ?_⟩
  · intro x
    rw [mem_flush_foldadd specMarks pendInit x pendWF_init, flushPending_init]
    simp
  · rw [mem_flush_foldadd specMarks pendInit 0 pendWF_init, flushPending_init]
    simp

/-- Witness for C9 at one prime (7) with a mixed offsets vector, one entry
above `sieveSize`. -/
theorem processSieve_refines_witness :
    (∀ pr ∈ [((7:Nat), [(1:Nat), 5, 9, 2, 3, 20000000])], 1 ≤ pr.1) ∧
    (∃ marks offs2 specMarks specOffs,
      processSieve [(7, [1, 5, 9, 2, 3, 20000000])] = some (marks, offs2) ∧
      processSieveSpec [(7, [1, 5, 9, 2, 3, 20000000])] = some (specMarks, specOffs) ∧
      offs2 = specOffs ∧
      (∀ x, x ∈ marks ↔ (x ∈ specMarks ∧ x ≠ 0)) ∧
      (0 : Nat) ∉ marks) :=
  ⟨by intro pr hpr; fin_cases hpr; norm_num,
    processSieve_refines [(7, [1, 5, 9, 2, 3, 20000000])]
      (by intro pr hpr; fin_cases hpr; norm_num)⟩

/-- One compare-and-swap of `silly_sort_indexes` (miner.cpp:166-173):
`if (indexes[j] < indexes[i]) std::swap(indexes[i], indexes[j])`. -/
def cswap (l : List Nat) (i j : Nat) : List Nat :=
  if l.getD j 0 < l.getD i 0 then (l.set i (l.getD j 0)).set j (l.getD i 0)
  else l

/-- The fifteen `(i, j)` pairs visited by the double loop of
`silly_sort_indexes`, in order. -/
def sillySortPairs : List (Nat × Nat) :=
  [(0, 1), (0, 2), (0, 3), (0, 4), (0, 5),
   (1, 2), (1, 3), (1, 4), (1, 5),
   (2, 3), (2, 4), (2, 5), (3, 4), (3, 5), (4, 5)]

/-- `silly_sort_indexes` (miner.cpp:166-173) on the six offsets of a dense
prime, run before each dense pass (miner.cpp:499). -/
def sillySort (l : List Nat) : List Nat :=
  sillySortPairs.foldl (fun l ij => cswap l ij.1 ij.2) l

theorem cswap_length (l : List Nat) (i j : Nat) :
    (cswap l i j).length = l.length := by
  unfold cswap
  split
  · simp
  · rfl

theorem mem_iff_getD (l : List Nat) (x : Nat) :
    x ∈ l ↔ ∃ n, n < l.length ∧ l.getD n 0 = x := by
  rw [List.mem_iff_getElem]
  constructor
  · rintro ⟨n, h, hv⟩
    refine ⟨n, h, ?_⟩
    rw [List.getD_eq_getElem l 0 h]
    exact hv
  · rintro ⟨n, h, hv⟩
    refine ⟨n, h, ?_⟩
    rw [← List.getD_eq_getElem l 0 h]
    exact hv

theorem cswap_mem (l : List Nat) (i j x : Nat)
    (hi : i < l.length) (hj : j < l.length) :
    x ∈ cswap l i j ↔ x ∈ l := by
  unfold cswap
  split
  · rename_i hlt
    have hji : j ≠ i := by
      intro h
      rw [h] at hlt
      exact lt_irrefl _ hlt
    have hlen2 : ((l.set i (l.getD j 0)).set j (l.getD i 0)).length = l.length := by
      simp
    have helem : ∀ k, k < l.length →
        ((l.set i (l.getD j 0)).set j (l.getD i 0)).getD k 0
          = if j = k then l.getD i 0 else if i = k then l.getD j 0
            else l.getD k 0 := by
      intro k hk
      have hk2 : k < ((l.set i (l.getD j 0)).set j (l.getD i 0)).length := by omega
      rw [List.getD_eq_getElem _ 0 hk2, List.getElem_set, List.getElem_set]
      split_ifs with h1 h2
      · rfl
      · rfl
      · exact (List.getD_eq_getElem l 0 hk).symm
    rw [mem_iff_getD, mem_iff_getD]
    constructor
    · rintro ⟨k, hk, hval⟩
      have hk2 : k < l.length := by omega
      rw [helem k hk2] at hval
      by_cases h1 : j = k
      · rw [if_pos h1] at hval
        exact ⟨i, hi, hval⟩
      · rw [if_neg h1] at hval
        by_cases h2 : i = k
        · rw [if_pos h2] at hval
          exact ⟨j, hj, hval⟩
        · rw [if_neg h2] at hval
          exact ⟨k, hk2, hval⟩
    · rintro ⟨k, hk, hval⟩
      by_cases h2 : i = k
      · subst h2
        refine ⟨j, by omega, ?_⟩
        rw [helem j hj, if_pos rfl]
        exact hval
      · by_cases h1 : j = k
        · subst h1
          refine ⟨i, by omega, ?_⟩
          rw [helem i hi, if_neg hji, if_pos rfl]
          exact hval
        · refine ⟨k, by omega, ?_⟩
          rw [helem k hk, if_neg h1, if_neg h2]
          exact hval
  · rfl

theorem sillySort_length (l : List Nat) : (sillySort l).length = l.length := by
  rw [sillySort]
  have : ∀ (ps : List (Nat × Nat)) (l : List Nat),
      (ps.foldl (fun l ij => cswap l ij.1 ij.2) l).length = l.length := by
    intro ps
    induction ps with
    | nil => intro l; rfl
    | cons ij ps ih =>
      intro l
      rw [List.foldl_cons, ih, cswap_length]
  exact this sillySortPairs l

theorem sillySort_mem (l : List Nat) (x : Nat) (hlen : l.length = 6) :
    x ∈ sillySort l ↔ x ∈ l := by
  rw [sillySort]
  have main : ∀ (ps : List (Nat × Nat)) (l : List Nat), l.length = 6 →
      (∀ ij ∈ ps, ij.1 < 6 ∧ ij.2 < 6) →
      (x ∈ ps.foldl (fun l ij => cswap l ij.1 ij.2) l ↔ x ∈ l) := by
    intro ps
    induction ps with
    | nil => intro l _ _; rfl
    | cons ij ps ih =>
      intro l hl hps
      rw [List.foldl_cons]
      have hij := hps ij (List.mem_cons_self _ _)
      have hlen2 : (cswap l ij.1 ij.2).length = 6 := by rw [cswap_length, hl]
      rw [ih (cswap l ij.1 ij.2) hlen2 (fun q hq => hps q (List.mem_cons_of_mem _ hq))]
      exact cswap_mem l ij.1 ij.2 x (by omega) (by omega)
  exact main sillySortPairs l hlen (by intro ij hij; fin_cases hij <;> norm_num)

theorem urList_length (p invert : Nat) :
    ∀ (offs : List Nat) (r : Nat), (urList p invert r offs).length = offs.length := by
  intro offs
  induction offs with
  | nil => intro r; rfl
  | cons off offs ih =>
    intro r
    rw [urList]
    show (urList p invert _ offs).length + 1 = _
    rw [ih]
    rfl

theorem urIndices_length (tar p invert : Nat) :
    (urIndices tar p invert).length = 6 :=
  urList_length p invert primeTupleOffset (tar % p)

/-- The solution produced by `update_remainders` for bias `f`: reduced
modulo `p` and solving the divisibility condition. -/
theorem urIndices_solution (P tar p invert : Nat)
    (hp : 5 ≤ p) (hp32 : p < 2 ^ 32) (hinv : invert < p)
    (hunit : P * invert % p = 1) (f : Nat) (hf : f < 6) :
    (urIndices tar p invert).getD f 0 < p ∧
    (tar + (urIndices tar p invert).getD f 0 * P + cumBias f) % p = 0 := by
  have hlen : f < primeTupleOffset.length := by
    simpa [primeTupleOffset] using hf
  have h0 : (tar + 0) % p = (tar % p) % p := by
    rw [Nat.add_zero, Nat.mod_mod_of_dvd _ (dvd_refl p)]
  obtain ⟨h1, h2, _⟩ := urList_spec P tar p invert hp hp32 hinv hunit
    primeTupleOffset (tar % p) 0 (le_of_lt (Nat.mod_lt _ (by omega))) h0
    (by intro o ho; fin_cases ho <;> norm_num) f hlen
  refine ⟨h1, ?_⟩
  have hcb : cumBias f = 0 + (primeTupleOffset.take (f + 1)).sum := by
    rw [cumBias]; ring
  rw [show tar + (urIndices tar p invert).getD f 0 * P + cumBias f
    = tar + (urIndices tar p invert).getD f 0 * P
      + (0 + (primeTupleOffset.take (f + 1)).sum) from by rw [← hcb]]
  exact h2

/-- Two solutions of the same per-prime divisibility condition are
congruent modulo `p` (the primorial is invertible modulo `p`). -/
theorem solutions_congruent (P p invert tar cb g1 g2 : Nat)
    (hp : 5 ≤ p) (hunit : P * invert % p = 1)
    (h1 : (tar + g1 * P + cb) % p = 0) (h2 : (tar + g2 * P + cb) % p = 0) :
    g1 % p = g2 % p := by
  have hcastPinv : ((P : ZMod p) * (invert : ZMod p)) = 1 := by
    have hx : (((P * invert) % p : Nat) : ZMod p) = ((P * invert : Nat) : ZMod p) :=
      ZMod.natCast_mod _ _
    rw [hunit] at hx
    push_cast at hx
    exact hx.symm
  have hz1 : ((tar + g1 * P + cb : Nat) : ZMod p) = 0 := by
    rw [ZMod.natCast_zmod_eq_zero_iff_dvd, Nat.dvd_iff_mod_eq_zero]
    exact h1
  have hz2 : ((tar + g2 * P + cb : Nat) : ZMod p) = 0 := by
    rw [ZMod.natCast_zmod_eq_zero_iff_dvd, Nat.dvd_iff_mod_eq_zero]
    exact h2
  push_cast at hz1 hz2
  have hg : (g1 : ZMod p) * ((P : ZMod p) * (invert : ZMod p))
      = (g2 : ZMod p) * ((P : ZMod p) * (invert : ZMod p)) := by
    have hGP : (g1 : ZMod p) * (P : ZMod p) = (g2 : ZMod p) * (P : ZMod p) := by
      have heq : (g1 : ZMod p) * (P : ZMod p) - (g2 : ZMod p) * (P : ZMod p)
          = ((tar : ZMod p) + (g1 : ZMod p) * (P : ZMod p) + (cb : ZMod p))
            - ((tar : ZMod p) + (g2 : ZMod p) * (P : ZMod p) + (cb : ZMod p)) := by
        ring
      have hz : (g1 : ZMod p) * (P : ZMod p) - (g2 : ZMod p) * (P : ZMod p) = 0 := by
        rw [heq, hz1, hz2]
        ring
      linear_combination hz
    calc (g1 : ZMod p) * ((P : ZMod p) * (invert : ZMod p))
        = ((g1 : ZMod p) * (P : ZMod p)) * (invert : ZMod p) := by ring
    _ = ((g2 : ZMod p) * (P : ZMod p)) * (invert : ZMod p) := by rw [hGP]
    _ = (g2 : ZMod p) * ((P : ZMod p) * (invert : ZMod p)) := by ring
  rw [hcastPinv, mul_one, mul_one] at hg
  exact (ZMod.natCast_eq_natCast_iff' g1 g2 p).mp hg

theorem forall2_mem_left {α β : Type} {R : α → β → Prop}
    {l1 : List α} {l2 : List β}
    (h : List.Forall₂ R l1 l2) :
    ∀ a ∈ l1, ∃ b ∈ l2, R a b := by
  induction h with
  | nil => intro a ha; exact absurd ha (List.not_mem_nil a)
  | cons hR hrest ih =>
    intro a ha
    rcases List.mem_cons.mp ha with rfl | ha
    · exact ⟨_, List.mem_cons_self _ _, hR⟩
    · obtain ⟨b, hb, hRb⟩ := ih a ha
      exact ⟨b, List.mem_cons_of_mem _ hb, hRb⟩

theorem forall2_mem_right {α β : Type} {R : α → β → Prop}
    {l1 : List α} {l2 : List β}
    (h : List.Forall₂ R l1 l2) :
    ∀ b ∈ l2, ∃ a ∈ l1, R a b := by
  induction h with
  | nil => intro b hb; exact absurd hb (List.not_mem_nil b)
  | cons hR hrest ih =>
    intro b hb
    rcases List.mem_cons.mp hb with rfl | hb
    · exact ⟨_, List.mem_cons_self _ _, hR⟩
    · obtain ⟨a, ha, hRa⟩ := ih b hb
      exact ⟨a, List.mem_cons_of_mem _ ha, hRa⟩

/-- The 64-bit words of a sieve bitmap built from the list of marked
positions: word `b` has bit `x % 64` set for every mark `x` in its range.
This is the word-level view of the byte writes
`sieve[x >> 3] |= 1 << (x & 7)` (miner.cpp:187, 280, 504, 531) together
with the word-wise OR merge of the worker bitmaps (miner.cpp:515-519):
bit `j` of the merged bitmap is set iff some stratum marked position
`j`. -/
def wordsOf (ms : List Nat) : List Nat :=
  (List.range sieveWords).map (fun b =>
    ms.foldl (fun w x => if x / 64 = b then w ||| (1 <<< (x % 64)) else w) 0)

theorem orFold_testBit (b t : Nat) (ht : t < 64) : ∀ (ms : List Nat) (w : Nat),
    ((ms.foldl (fun w x => if x / 64 = b then w ||| (1 <<< (x % 64)) else w) w).testBit t = true
      ↔ w.testBit t = true ∨ ∃ x ∈ ms, x / 64 = b ∧ x % 64 = t) := by
  intro ms
  induction ms with
  | nil => intro w; simp
  | cons y ms ih =>
    intro w
    rw [List.foldl_cons]
    by_cases hy : y / 64 = b
    · rw [if_pos hy, ih]
      have hbit : (w ||| (1 <<< (y % 64))).testBit t
          = (w.testBit t || (1 <<< (y % 64)).testBit t) := Nat.testBit_lor _ _ _
      have hone : ((1:Nat) <<< (y % 64)).testBit t = decide (y % 64 = t) := by
        rw [Nat.shiftLeft_eq, one_mul, Nat.testBit_two_pow]
      rw [hbit, hone]
      simp only [Bool.or_eq_true, decide_eq_true_eq, List.mem_cons]
      constructor
      · rintro ((h | h) | ⟨x, hx, hxb, hxt⟩)
        · exact Or.inl h
        · exact Or.inr ⟨y, Or.inl rfl, hy, h⟩
        · exact Or.inr ⟨x, Or.inr hx, hxb, hxt⟩
      · rintro (h | ⟨x, (rfl | hx), hxb, hxt⟩)
        · exact Or.inl (Or.inl h)
        · exact Or.inl (Or.inr hxt)
        · exact Or.inr ⟨x, hx, hxb, hxt⟩
    · rw [if_neg hy, ih]
      simp only [List.mem_cons]
      constructor
      · rintro (h | ⟨x, hx, hxb, hxt⟩)
        · exact Or.inl h
        · exact Or.inr ⟨x, Or.inr hx, hxb, hxt⟩
      · rintro (h | ⟨x, (rfl | hx), hxb, hxt⟩)
        · exact Or.inl h
        · exact absurd hxb hy
        · exact Or.inr ⟨x, hx, hxb, hxt⟩

theorem orFold_lt (b : Nat) : ∀ (ms : List Nat) (w : Nat), w < 2 ^ 64 →
    (ms.foldl (fun w x => if x / 64 = b then w ||| (1 <<< (x % 64)) else w) w) < 2 ^ 64 := by
  intro ms
  induction ms with
  | nil => intro w hw; exact hw
  | cons y ms ih =>
    intro w hw
    rw [List.foldl_cons]
    split
    · apply ih
      apply Nat.or_lt_two_pow hw
      rw [Nat.shiftLeft_eq, one_mul]
      exact Nat.pow_lt_pow_right (by norm_num) (Nat.mod_lt _ (by norm_num))
    · exact ih w hw

theorem wordsOf_getD (ms : List Nat) (b : Nat) (hb : b < sieveWords) :
    (wordsOf ms).getD b 0
      = ms.foldl (fun w x => if x / 64 = b then w ||| (1 <<< (x % 64)) else w) 0 := by
  rw [wordsOf, List.getD_eq_getElem?_getD, List.getElem?_map,
    List.getElem?_range hb]
  rfl

/-- The word-level extraction over the bitmap built from the mark list
emits exactly the unmarked positions below `sieveSize`. -/
theorem emitted_iff (ms : List Nat) (hms : ∀ x ∈ ms, x < sieveSize) (j : Nat) :
    j ∈ extractAll 0 (wordsOf ms) ↔ (j < sieveSize ∧ j ∉ ms) := by
  have hwlen : (wordsOf ms).length = sieveWords := by
    rw [wordsOf, List.length_map, List.length_range]
  have hS64 : sieveSize = 64 * sieveWords := by norm_num [sieveSize, sieveWords]
  rw [mem_extractAll]
  constructor
  · rintro ⟨b, hb, hmem⟩
    rw [hwlen] at hb
    rw [wordsOf_getD ms b hb] at hmem
    rw [mem_extractWord _ _ _ (orFold_lt b ms 0 (by norm_num))] at hmem
    obtain ⟨t, ht, hj, hbit⟩ := hmem
    have hbit2 := (testBit_allOnes_sub 64 _ t (orFold_lt b ms 0 (by norm_num)) ht).mp hbit
    constructor
    · omega
    · intro hjm
      have : (ms.foldl (fun w x => if x / 64 = b then w ||| (1 <<< (x % 64)) else w) 0).testBit t = true := by
        rw [orFold_testBit b t ht ms 0]
        right
        exact ⟨j, hjm, by omega, by omega⟩
      rw [this] at hbit2
      exact Bool.noConfusion hbit2
  · rintro ⟨hjS, hjm⟩
    refine ⟨j / 64, ?_, ?_⟩
    · rw [hwlen]
      omega
    · rw [wordsOf_getD ms (j / 64) (by omega)]
      rw [mem_extractWord _ _ _ (orFold_lt (j / 64) ms 0 (by norm_num))]
      refine ⟨j % 64, Nat.mod_lt _ (by norm_num), by omega, ?_⟩
      apply (testBit_allOnes_sub 64 _ (j % 64)
        (orFold_lt (j / 64) ms 0 (by norm_num)) (Nat.mod_lt _ (by norm_num))).mpr
      rw [← Bool.not_eq_true]
      intro hset
      rw [orFold_testBit (j / 64) (j % 64) (Nat.mod_lt _ (by norm_num)) ms 0] at hset
      rcases hset with hset | ⟨x, hx, hxb, hxt⟩
      · rw [Nat.testBit_eq_false_of_lt (by norm_num)] at hset
        exact Bool.noConfusion hset
      · have : x = j := by omega
        subst this
        exact hjm hx

theorem sixSlotsSpec_next (p : Nat) (hp : 1 ≤ p) :
    ∀ (offs : List Nat) (ms os2 : List Nat),
      sixSlotsSpec p offs = some (ms, os2) →
      List.Forall₂ (fun o o2 => (o < p → o2 < p) ∧ (o2 + sieveSize) % p = o % p)
        offs os2 := by
  intro offs
  induction offs with
  | nil =>
    intro ms os2 h
    injection h with h
    injection h with h1 h2
    subst h2
    exact List.Forall₂.nil
  | cons o os ih =>
    intro ms os2 h
    rw [sixSlotsSpec] at h
    rcases hso : slotRun p o with _ | r
    · rw [hso] at h; exact Option.noConfusion h
    · rw [hso] at h
      rcases hsix : sixSlotsSpec p os with _ | r2
      · rw [hsix] at h; exact Option.noConfusion h
      · rw [hsix] at h
        have h2 : (some (r.1 ++ r2.1, r.2 :: r2.2) : Option (List Nat × List Nat))
            = some (ms, os2) := h
        injection h2 with h2
        injection h2 with h2a h2b
        subst h2b
        obtain ⟨ms1, nx, hrun, _, oend, he1, he2, he3, _⟩ := slotRun_spec p o hp
        rw [hso] at hrun
        injection hrun with hrun
        subst hrun
        refine List.Forall₂.cons ⟨?_, ?_⟩ (ih r2.1 r2.2 (by rw [hsix]))
        · intro ho
          exact slotRun_next_lt p o nx ms1 hp ho hso
        · show (nx + sieveSize) % p = o % p
          rw [show nx + sieveSize = oend from by omega]
          exact he3

theorem sixSlotsSpec_marks (p : Nat) (hp : 1 ≤ p) :
    ∀ (offs : List Nat) (ms os2 : List Nat),
      sixSlotsSpec p offs = some (ms, os2) →
      (∀ x ∈ ms, x < sieveSize) ∧
      (∀ o ∈ offs, o < p → ∀ x, x < sieveSize → x % p = o % p → x ∈ ms) := by
  intro offs
  induction offs with
  | nil =>
    intro ms os2 h
    injection h with h
    injection h with h1 h2
    subst h1
    exact ⟨by intro x hx; exact absurd hx (List.not_mem_nil x), by simp⟩
  | cons o os ih =>
    intro ms os2 h
    rw [sixSlotsSpec] at h
    rcases hso : slotRun p o with _ | r
    · rw [hso] at h; exact Option.noConfusion h
    · rw [hso] at h
      rcases hsix : sixSlotsSpec p os with _ | r2
      · rw [hsix] at h; exact Option.noConfusion h
      · rw [hsix] at h
        have h2 : (some (r.1 ++ r2.1, r.2 :: r2.2) : Option (List Nat × List Nat))
            = some (ms, os2) := h
        injection h2 with h2
        injection h2 with h2a h2b
        subst h2a
        obtain ⟨ih1, ih2⟩ := ih r2.1 r2.2 (by rw [hsix])
        obtain ⟨ms1, nx, hrun, hmem, _⟩ := slotRun_spec p o hp
        rw [hso] at hrun
        injection hrun with hrun
        subst hrun
        constructor
        · intro x hx
          rcases List.mem_append.mp hx with hx | hx
          · exact ((hmem x).mp hx).2.1
          · exact ih1 x hx
        · intro o2 ho2 hor x hxS hxcong
          rcases List.mem_cons.mp ho2 with rfl | ho2
          · apply List.mem_append_left
            apply (hmem x).mpr
            refine ⟨?_, hxS, hxcong⟩
            calc o2 = o2 % p := (Nat.mod_eq_of_lt hor).symm
            _ = x % p := hxcong.symm
            _ ≤ x := Nat.mod_le x p
          · exact List.mem_append_right _ (ih2 o2 ho2 hor x hxS hxcong)

/-- The per-prime invariant carried across sieve iterations: the entry
holds the right prime, six offsets, all reduced modulo `p`, and for each
bias `f` some offset lies in the residue class of the initial solution
shifted by `L` segments. -/
def offsInv (tar : Nat) (L : Nat) (pi : Nat × Nat) (pr : Nat × List Nat) : Prop :=
  pr.1 = pi.1 ∧ pr.2.length = 6 ∧ (∀ o ∈ pr.2, o < pi.1) ∧
  ∀ f, f < 6 → ∃ o ∈ pr.2,
    (o + L * sieveSize) % pi.1 = (urIndices tar pi.1 pi.2).getD f 0 % pi.1

theorem offsInv_init (tar : Nat) (pi : Nat × Nat) (hp : 1 ≤ pi.1) :
    offsInv tar 0 pi (pi.1, urIndices tar pi.1 pi.2) := by
  refine ⟨rfl, urIndices_length tar pi.1 pi.2, ?_, ?_⟩
  · intro o ho
    exact urList_mem_lt pi.1 pi.2 (by omega) primeTupleOffset (tar % pi.1) o ho
  · intro f hf
    have hflen : f < (urIndices tar pi.1 pi.2).length := by
      rw [urIndices_length]; exact hf
    refine ⟨(urIndices tar pi.1 pi.2).getD f 0, ?_, by simp⟩
    rw [List.getD_eq_getElem _ 0 hflen]
    exact List.getElem_mem _

theorem offsInv_step (tar L : Nat) (pi : Nat × Nat) (offs ms os2 : List Nat)
    (hp : 1 ≤ pi.1)
    (h : sixSlotsSpec pi.1 offs = some (ms, os2))
    (hlen : offs.length = 6) (hred : ∀ o ∈ offs, o < pi.1)
    (hcov : ∀ f, f < 6 → ∃ o ∈ offs,
      (o + L * sieveSize) % pi.1 = (urIndices tar pi.1 pi.2).getD f 0 % pi.1) :
    offsInv tar (L + 1) pi (pi.1, os2) ∧
    (∀ x ∈ ms, x < sieveSize) ∧
    (∀ f, f < 6 → ∀ x, x < sieveSize →
      (x + L * sieveSize) % pi.1 = (urIndices tar pi.1 pi.2).getD f 0 % pi.1 →
      x ∈ ms) := by
  have hF2 := sixSlotsSpec_next pi.1 hp offs ms os2 h
  obtain ⟨hmk1, hmk2⟩ := sixSlotsSpec_marks pi.1 hp offs ms os2 h
  refine ⟨⟨rfl, ?_, ?_, ?_⟩, hmk1, ?_⟩
  · rw [← hF2.length_eq]
    exact hlen
  · intro o2 ho2
    obtain ⟨o, ho, hrel⟩ := forall2_mem_right hF2 o2 ho2
    exact hrel.1 (hred o ho)
  · intro f hf
    obtain ⟨o, ho, hcong⟩ := hcov f hf
    obtain ⟨o2, ho2, hrel⟩ := forall2_mem_left hF2 o ho
    refine ⟨o2, ho2, ?_⟩
    have h1 : (o2 + sieveSize) % pi.1 = o % pi.1 := hrel.2
    calc (o2 + (L + 1) * sieveSize) % pi.1
        = (o2 + sieveSize + L * sieveSize) % pi.1 := by ring_nf
    _ = (o + L * sieveSize) % pi.1 := by
        rw [Nat.add_mod, h1, ← Nat.add_mod]
    _ = (urIndices tar pi.1 pi.2).getD f 0 % pi.1 := hcong
  · intro f hf x hxS hxcong
    obtain ⟨o, ho, hcong⟩ := hcov f hf
    have hxo : x % pi.1 = o % pi.1 := by
      have hc : (x + L * sieveSize) % pi.1 = (o + L * sieveSize) % pi.1 := by
        rw [hxcong, hcong]
      exact Nat.ModEq.add_right_cancel' (L * sieveSize) hc
    exact hmk2 o ho (hred o ho) x hxS hxo

/-- The dense stratum of one iteration (miner.cpp:496-509): for each dense
prime in order, `silly_sort_indexes(offsets[pno])` (miner.cpp:499), then
the six while-loops writing bits directly into the main bitmap
(miner.cpp:501-508) — the same slot loops as `sixSlotsSpec`.  Returns the
marked positions and the updated offset entries. -/
def denseStep : List (Nat × List Nat) → Option (List Nat × List (Nat × List Nat))
  | [] => some ([], [])
  | pr :: ps =>
    (sixSlotsSpec pr.1 (sillySort pr.2)).bind fun r =>
      (denseStep ps).map fun r2 => (r.1 ++ r2.1, (pr.1, r.2) :: r2.2)

theorem denseStep_inv (tar L : Nat) :
    ∀ (prs : List (Nat × Nat)) (st : List (Nat × List Nat)),
    (∀ pi ∈ prs, 1 ≤ pi.1) → List.Forall₂ (offsInv tar L) prs st →
    ∃ ms st2, denseStep st = some (ms, st2) ∧
      List.Forall₂ (offsInv tar (L + 1)) prs st2 ∧
      (∀ x ∈ ms, x < sieveSize) ∧
      (∀ pi ∈ prs, ∀ f, f < 6 → ∀ x, x < sieveSize →
        (x + L * sieveSize) % pi.1 = (urIndices tar pi.1 pi.2).getD f 0 % pi.1 →
        x ∈ ms) := by
  intro prs st hps hinv
  induction hinv with
  | nil =>
    refine ⟨[], [], rfl, List.Forall₂.nil, ?_, ?_⟩
    · intro x hx; exact absurd hx (List.not_mem_nil x)
    · intro pi hpi; exact absurd hpi (List.not_mem_nil pi)
  | cons hR hF ih =>
    rename_i pi pr prs2 st2
    have hp1 : 1 ≤ pi.1 := hps pi (List.mem_cons_self _ _)
    obtain ⟨hpr1, hlen6, hred, hcov⟩ := hR
    have hp1r : 1 ≤ pr.1 := by omega
    have hslen : (sillySort pr.2).length = 6 := by
      rw [sillySort_length]; exact hlen6
    have hsmem : ∀ x, x ∈ sillySort pr.2 ↔ x ∈ pr.2 :=
      fun x => sillySort_mem pr.2 x hlen6
    obtain ⟨ms1, os2, hsix⟩ := sixSlotsSpec_ok pr.1 hp1r (sillySort pr.2)
    have hsix2 : sixSlotsSpec pi.1 (sillySort pr.2) = some (ms1, os2) := by
      rw [← hpr1]; exact hsix
    obtain ⟨hinv2, hbound1, hcomp1⟩ := offsInv_step tar L pi (sillySort pr.2)
      ms1 os2 hp1 hsix2 hslen
      (fun o ho => hred o ((hsmem o).mp ho))
      (fun f hf => by
        obtain ⟨o, ho, hc⟩ := hcov f hf
        exact ⟨o, (hsmem o).mpr ho, hc⟩)
    obtain ⟨ms2, st3, hds, hfa, hbound2, hcomp2⟩ :=
      ih (fun q hq => hps q (List.mem_cons_of_mem _ hq))
    refine ⟨ms1 ++ ms2, (pr.1, os2) :: st3, ?_, ?_, ?_, ?_⟩
    · rw [denseStep, hsix]
      show (denseStep st2).map _ = _
      rw [hds]
      rfl
    · refine List.Forall₂.cons ?_ hfa
      obtain ⟨_, ha, hb, hc⟩ := hinv2
      exact ⟨hpr1, ha, hb, hc⟩
    · intro x hx
      rcases List.mem_append.mp hx with hx | hx
      · exact hbound1 x hx
      · exact hbound2 x hx
    · intro q hq f hf x hxS hxc
      rcases List.mem_cons.mp hq with rfl | hq
      · exact List.mem_append_left _ (hcomp1 f hf x hxS hxc)
      · exact List.mem_append_right _ (hcomp2 q hq f hf x hxS hxc)

theorem processSieveSpec_inv (tar L : Nat) :
    ∀ (prs : List (Nat × Nat)) (st : List (Nat × List Nat)),
    (∀ pi ∈ prs, 1 ≤ pi.1) → List.Forall₂ (offsInv tar L) prs st →
    ∃ ms st2, processSieveSpec st = some (ms, st2) ∧
      List.Forall₂ (offsInv tar (L + 1)) prs st2 ∧
      (∀ x ∈ ms, x < sieveSize) ∧
      (∀ pi ∈ prs, ∀ f, f < 6 → ∀ x, x < sieveSize →
        (x + L * sieveSize) % pi.1 = (urIndices tar pi.1 pi.2).getD f 0 % pi.1 →
        x ∈ ms) := by
  intro prs st hps hinv
  induction hinv with
  | nil =>
    refine ⟨[], [], rfl, List.Forall₂.nil, ?_, ?_⟩
    · intro x hx; exact absurd hx (List.not_mem_nil x)
    · intro pi hpi; exact absurd hpi (List.not_mem_nil pi)
  | cons hR hF ih =>
    rename_i pi pr prs2 st2
    have hp1 : 1 ≤ pi.1 := hps pi (List.mem_cons_self _ _)
    obtain ⟨hpr1, hlen6, hred, hcov⟩ := hR
    have hp1r : 1 ≤ pr.1 := by omega
    obtain ⟨ms1, os2, hsix⟩ := sixSlotsSpec_ok pr.1 hp1r pr.2
    have hsix2 : sixSlotsSpec pi.1 pr.2 = some (ms1, os2) := by
      rw [← hpr1]; exact hsix
    obtain ⟨hinv2, hbound1, hcomp1⟩ := offsInv_step tar L pi pr.2
      ms1 os2 hp1 hsix2 hlen6 hred hcov
    obtain ⟨ms2, st3, hds, hfa, hbound2, hcomp2⟩ :=
      ih (fun q hq => hps q (List.mem_cons_of_mem _ hq))
    refine ⟨ms1 ++ ms2, (pr.1, os2) :: st3, ?_, ?_, ?_, ?_⟩
    · show (sixSlotsSpec pr.1 pr.2).bind _ = _
      rw [hsix]
      show (processSieveSpec st2).map _ = _
      rw [hds]
      rfl
    · refine List.Forall₂.cons ?_ hfa
      obtain ⟨_, ha, hb, hc⟩ := hinv2
      exact ⟨hpr1, ha, hb, hc⟩
    · intro x hx
      rcases List.mem_append.mp hx with hx | hx
      · exact hbound1 x hx
      · exact hbound2 x hx
    · intro q hq f hf x hxS hxc
      rcases List.mem_cons.mp hq with rfl | hq
      · exact List.mem_append_left _ (hcomp1 f hf x hxS hxc)
      · exact List.mem_append_right _ (hcomp2 q hq f hf x hxS hxc)

theorem processSieve_inv (tar L : Nat) (prs : List (Nat × Nat))
    (st : List (Nat × List Nat))
    (hps : ∀ pi ∈ prs, 1 ≤ pi.1) (hinv : List.Forall₂ (offsInv tar L) prs st) :
    ∃ ms st2, processSieve st = some (ms, st2) ∧
      List.Forall₂ (offsInv tar (L + 1)) prs st2 ∧
      (∀ x ∈ ms, x < sieveSize) ∧
      (∀ pi ∈ prs, ∀ f, f < 6 → ∀ x, 1 ≤ x → x < sieveSize →
        (x + L * sieveSize) % pi.1 = (urIndices tar pi.1 pi.2).getD f 0 % pi.1 →
        x ∈ ms) := by
  obtain ⟨ms, st2, hspec, hfa, hbound, hcomp⟩ :=
    processSieveSpec_inv tar L prs st hps hinv
  have hpend := processSievePend_eq st pendInit
  rw [hspec] at hpend
  refine ⟨flushPending (ms.foldl addToPending pendInit), st2, ?_, hfa, ?_, ?_⟩
  · rw [processSieve, hpend]
    rfl
  · intro x hx
    rw [mem_flush_foldadd ms pendInit x pendWF_init, flushPending_init] at hx
    rcases hx with hx | hx
    · exact absurd hx (List.not_mem_nil x)
    · exact hbound x hx.1
  · intro pi hpi f hf x hx1 hxS hxc
    rw [mem_flush_foldadd ms pendInit x pendWF_init, flushPending_init]
    exact Or.inr ⟨hcomp pi hpi f hf x hxS hxc, by omega⟩

/-- Resident offset tables as established by the TYPE_MOD phase: each
resident prime paired with the six offsets `update_remainders` stored for
it (miner.cpp:222-240). -/
def initResident (tar : Nat) (prs : List (Nat × Nat)) : List (Nat × List Nat) :=
  prs.map (fun pi => (pi.1, urIndices tar pi.1 pi.2))

/-- The once-only indices pushed into the segment buckets
(miner.cpp:241-248): per once-only prime, its computed indices below
`max_increments`, in order.  The batched flushes under the bucket lock
place exactly these indices. -/
def oncePushed (tar : Nat) (prs : List (Nat × Nat)) : List Nat :=
  (prs.map (fun pi => (urIndices tar pi.1 pi.2).filter
    (fun x => decide (x < maxIncrements)))).join

/-- Application of the once-only bucket of one iteration
(miner.cpp:521-533): run the bucket entries through a fresh pending ring
against the main bitmap, then flush the ring. -/
def applySegment (xs : List Nat) : List Nat :=
  flushPending (xs.foldl addToPending pendInit)

/-- One iteration of the sieve phase: the dense stratum writes the main
bitmap inline (miner.cpp:496-509) while `process_sieve` jobs fill the
worker bitmaps (miner.cpp:475-494, 309-311); the worker bitmaps are then
OR-merged into the main bitmap (miner.cpp:515-519), so the marked
positions of the merge are the union of both strata.  Returns (dense
marks, sparse marks) and the updated offset tables. -/
def sieveIter (st : List (Nat × List Nat) × List (Nat × List Nat)) :
    Option ((List Nat × List Nat) × (List (Nat × List Nat) × List (Nat × List Nat))) :=
  (denseStep st.1).bind fun rd =>
    (processSieve st.2).map fun rs => ((rd.1, rs.1), (rd.2, rs.2))

/-- The offset tables at the start of iteration `L` of the main loop
(miner.cpp:466). -/
def stateAt (d0 s0 : List (Nat × List Nat)) : Nat →
    Option (List (Nat × List Nat) × List (Nat × List Nat))
  | 0 => some (d0, s0)
  | L + 1 => (stateAt d0 s0 L).bind fun st => (sieveIter st).map fun r => r.2

/-- All positions marked in the merged bitmap of iteration `L`: dense
marks, sparse marks, and the nonzero once-only bucket entries of the
iteration (miner.cpp:521-533). -/
def marksAt (d0 s0 : List (Nat × List Nat)) (seg : SegState) (L : Nat) :
    Option (List Nat) :=
  (stateAt d0 s0 L).bind fun st => (sieveIter st).map fun r =>
    r.1.1 ++ r.1.2 ++ applySegment (seg.hits L)

/-- Candidate index `j` survives the merged sieve of iteration `L` and is
emitted by the extraction scan (miner.cpp:541-577). -/
def emittedAt (d0 s0 : List (Nat × List Nat)) (seg : SegState) (L j : Nat) : Prop :=
  ∃ ms, marksAt d0 s0 seg L = some ms ∧ j ∈ extractAll 0 (wordsOf ms)

theorem sieveIter_eq (dL sL : List (Nat × List Nat)) (msd : List Nat)
    (d2 : List (Nat × List Nat)) (mss : List Nat) (s2 : List (Nat × List Nat))
    (h1 : denseStep dL = some (msd, d2)) (h2 : processSieve sL = some (mss, s2)) :
    sieveIter (dL, sL) = some ((msd, mss), (d2, s2)) := by
  show (denseStep dL).bind
      (fun rd => (processSieve sL).map fun rs => ((rd.1, rs.1), (rd.2, rs.2)))
    = some ((msd, mss), (d2, s2))
  rw [h1, h2]
  rfl

theorem initResident_inv (tar : Nat) :
    ∀ (prs : List (Nat × Nat)), (∀ pi ∈ prs, 1 ≤ pi.1) →
    List.Forall₂ (offsInv tar 0) prs (initResident tar prs) := by
  intro prs
  induction prs with
  | nil => intro _; exact List.Forall₂.nil
  | cons pi prs ih =>
    intro hps
    exact List.Forall₂.cons
      (offsInv_init tar pi (hps pi (List.mem_cons_self _ _)))
      (ih (fun q hq => hps q (List.mem_cons_of_mem _ hq)))

theorem stateAt_inv (tar : Nat) (dps sps : List (Nat × Nat))
    (hd : ∀ pi ∈ dps, 1 ≤ pi.1) (hs : ∀ pi ∈ sps, 1 ≤ pi.1) :
    ∀ L, ∃ dL sL,
      stateAt (initResident tar dps) (initResident tar sps) L = some (dL, sL) ∧
      List.Forall₂ (offsInv tar L) dps dL ∧
      List.Forall₂ (offsInv tar L) sps sL := by
  intro L
  induction L with
  | zero =>
    exact ⟨initResident tar dps, initResident tar sps, rfl,
      initResident_inv tar dps hd, initResident_inv tar sps hs⟩
  | succ L ih =>
    obtain ⟨dL, sL, hst, hdi, hsi⟩ := ih
    obtain ⟨msd, d2, hdstep, hdi2, _, _⟩ := denseStep_inv tar L dps dL hd hdi
    obtain ⟨mss, s2, hsstep, hsi2, _, _⟩ := processSieve_inv tar L sps sL hs hsi
    refine ⟨d2, s2, ?_, hdi2, hsi2⟩
    rw [stateAt, hst]
    show (sieveIter (dL, sL)).map (fun r => r.2) = some (d2, s2)
    rw [sieveIter_eq dL sL msd d2 mss s2 hdstep hsstep]
    rfl

/-- C2 (amended): sieve soundness away from position 0.  Let
`base = zT + R` be the candidate base of the block.  For every iteration
`L < maxiter` and every candidate index `j ≥ 1` that survives the merged
sieve (dense stratum, merged sparse bitmaps, and the iteration's
once-only bucket) and is emitted by extraction, for every sieved prime
`p` (dense, sparse, or once-only, each with its primorial inverse) and
every bias `f`: `base + ((L·sieveSize + j)·P + cumBias f) ≢ 0 (mod p)`.
The restriction `j ≥ 1` is necessary: the pending ring never marks
position 0, so index 0 can survive while being divisible
(`sieve_unsound_at_zero`). -/
theorem sieve_soundness (zT R P eps : Nat)
    (dense sparse once : List (Nat × Nat)) (seg : SegState)
    (hd : ∀ pi ∈ dense,
      5 ≤ pi.1 ∧ pi.1 < maxIncrements ∧ pi.2 < pi.1 ∧ P * pi.2 % pi.1 = 1)
    (hs : ∀ pi ∈ sparse,
      5 ≤ pi.1 ∧ pi.1 < maxIncrements ∧ pi.2 < pi.1 ∧ P * pi.2 % pi.1 = 1)
    (ho : ∀ pi ∈ once,
      5 ≤ pi.1 ∧ maxIncrements ≤ pi.1 ∧ pi.1 < 2 ^ 32 ∧ pi.2 < pi.1 ∧
        P * pi.2 % pi.1 = 1)
    (hseg : putOffsetsInSegments eps segInit (oncePushed (zT + R) once) = some seg)
    (L j : Nat) (hL : L < maxiter) (hj1 : 1 ≤ j)
    (hem : emittedAt (initResident (zT + R) dense) (initResident (zT + R) sparse)
      seg L j)
    (pr : Nat × Nat) (hpr : pr ∈ dense ++ sparse ++ once)
    (f : Nat) (hf : f < 6) :
    (zT + R + (L * sieveSize + j) * P + cumBias f) % pr.1 ≠ 0 := by
  intro hdvd
  set tar := zT + R with htar
  have hd1 : ∀ pi ∈ dense, 1 ≤ pi.1 := fun pi h => by have := (hd pi h).1; omega
  have hs1 : ∀ pi ∈ sparse, 1 ≤ pi.1 := fun pi h => by have := (hs pi h).1; omega
  -- reconstruct the marks of iteration L
  obtain ⟨dL, sL, hst, hdi, hsi⟩ := stateAt_inv tar dense sparse hd1 hs1 L
  obtain ⟨msd, d2, hdstep, _, hbd, hcompd⟩ := denseStep_inv tar L dense dL hd1 hdi
  obtain ⟨mss, s2, hsstep, _, hbs, hcomps⟩ := processSieve_inv tar L sparse sL hs1 hsi
  have hms : marksAt (initResident tar dense) (initResident tar sparse) seg L
      = some (msd ++ mss ++ applySegment (seg.hits L)) := by
    rw [marksAt, hst]
    show (sieveIter (dL, sL)).map
        (fun r => r.1.1 ++ r.1.2 ++ applySegment (seg.hits L))
      = some (msd ++ mss ++ applySegment (seg.hits L))
    rw [sieveIter_eq dL sL msd d2 mss s2 hdstep hsstep]
    rfl
  obtain ⟨ms, hms2, hmem⟩ := hem
  rw [hms] at hms2
  injection hms2 with hms2
  subst hms2
  -- all marks are below sieveSize
  have hseghits : ∀ x ∈ seg.hits L, x < sieveSize := by
    intro x hx
    rw [putOffsets_mem eps (oncePushed tar once) segInit seg hseg L x] at hx
    rcases hx with hx | ⟨y, _, _, hy⟩
    · exact absurd hx (List.not_mem_nil x)
    · rw [← hy]
      exact Nat.mod_lt _ (by norm_num [sieveSize])
  have hbound : ∀ x ∈ msd ++ mss ++ applySegment (seg.hits L), x < sieveSize := by
    intro x hx
    rcases List.mem_append.mp hx with hx | hx
    · rcases List.mem_append.mp hx with hx | hx
      · exact hbd x hx
      · exact hbs x hx
    · rw [applySegment,
        mem_flush_foldadd (seg.hits L) pendInit x pendWF_init,
        flushPending_init] at hx
      rcases hx with hx | hx
      · exact absurd hx (List.not_mem_nil x)
      · exact hseghits x hx.1
  have hjnot := (emitted_iff _ hbound j).mp hmem
  obtain ⟨hjS, hjninS⟩ := hjnot
  -- the divisibility forces the candidate into the marked class
  rcases List.mem_append.mp hpr with hprds | hpronce
  · rcases List.mem_append.mp hprds with hprd | hprs
    · -- dense prime
      obtain ⟨hp5, hpm, hpinv, hpunit⟩ := hd pr hprd
      have hp32 : pr.1 < 2 ^ 32 :=
        lt_trans hpm (by norm_num [maxIncrements])
      obtain ⟨hx0lt, hx0⟩ :=
        urIndices_solution P tar pr.1 pr.2 hp5 hp32 hpinv hpunit f hf
      have hcong := solutions_congruent P pr.1 pr.2 tar (cumBias f)
        (L * sieveSize + j) ((urIndices tar pr.1 pr.2).getD f 0)
        hp5 hpunit hdvd hx0
      apply hjninS
      apply List.mem_append_left
      apply List.mem_append_left
      apply hcompd pr hprd f hf j hjS
      rw [show j + L * sieveSize = L * sieveSize + j from by ring]
      exact hcong
    · -- sparse prime
      obtain ⟨hp5, hpm, hpinv, hpunit⟩ := hs pr hprs
      have hp32 : pr.1 < 2 ^ 32 :=
        lt_trans hpm (by norm_num [maxIncrements])
      obtain ⟨hx0lt, hx0⟩ :=
        urIndices_solution P tar pr.1 pr.2 hp5 hp32 hpinv hpunit f hf
      have hcong := solutions_congruent P pr.1 pr.2 tar (cumBias f)
        (L * sieveSize + j) ((urIndices tar pr.1 pr.2).getD f 0)
        hp5 hpunit hdvd hx0
      apply hjninS
      apply List.mem_append_left
      apply List.mem_append_right
      apply hcomps pr hprs f hf j hj1 hjS
      rw [show j + L * sieveSize = L * sieveSize + j from by ring]
      exact hcong
  · -- once-only prime
    obtain ⟨hp5, hpm, hp32, hpinv, hpunit⟩ := ho pr hpronce
    obtain ⟨hx0lt, hx0⟩ :=
      urIndices_solution P tar pr.1 pr.2 hp5 hp32 hpinv hpunit f hf
    have hcong := solutions_congruent P pr.1 pr.2 tar (cumBias f)
      (L * sieveSize + j) ((urIndices tar pr.1 pr.2).getD f 0)
      hp5 hpunit hdvd hx0
    set x0 := (urIndices tar pr.1 pr.2).getD f 0 with hx0def
    have hSval : sieveSize = 16777216 := rfl
    have hMval : maxIncrements = 536870912 := rfl
    have hmaxit : maxiter = 32 := rfl
    have hls : L * sieveSize = 16777216 * L := by rw [hSval]; ring
    have hgmax : L * sieveSize + j < maxIncrements := by
      have hL32 : L ≤ 31 := by omega
      have hmul : L * sieveSize ≤ 31 * sieveSize := Nat.mul_le_mul_right _ hL32
      omega
    have hgx0 : L * sieveSize + j = x0 := by
      have h1 : (L * sieveSize + j) % pr.1 = L * sieveSize + j :=
        Nat.mod_eq_of_lt (by omega)
      have h2 : x0 % pr.1 = x0 := Nat.mod_eq_of_lt hx0lt
      omega
    have hx0mem : x0 ∈ oncePushed tar once := by
      rw [oncePushed, List.mem_join]
      refine ⟨(urIndices tar pr.1 pr.2).filter
        (fun x => decide (x < maxIncrements)), ?_, ?_⟩
      · rw [List.mem_map]
        exact ⟨pr, hpronce, rfl⟩
      · rw [List.mem_filter]
        constructor
        · have hflen : f < (urIndices tar pr.1 pr.2).length := by
            rw [urIndices_length]; exact hf
          rw [hx0def, List.getD_eq_getElem _ 0 hflen]
          exact List.getElem_mem _
        · rw [decide_eq_true_eq]
          omega
    have hjseg : j ∈ seg.hits L := by
      rw [putOffsets_mem eps (oncePushed tar once) segInit seg hseg L j]
      right
      refine ⟨x0, hx0mem, ?_, ?_⟩
      · rw [Nat.shiftRight_eq_div_pow, ← hgx0]
        show (L * sieveSize + j) / 2 ^ 24 = L
        rw [hSval]
        omega
      · rw [← hgx0, hSval]
        omega
    apply hjninS
    apply List.mem_append_right
    rw [applySegment, mem_flush_foldadd (seg.hits L) pendInit j pendWF_init,
      flushPending_init]
    exact Or.inr ⟨hjseg, by omega⟩

/-- Candidate base `zTarget + zRemainderPrimorial` of the C2
counterexample block: for `zTarget = primorial40 · 2197` the remainder is
exactly `primorial_offset` (cf. `remainderPrimorial`), and the multiplier
2197 was chosen so that the sparse prime 16411 divides
`base + sieveSize · P` — the candidate of iteration 1, index 0, bias 0. -/
def c2Tar : Nat := primorial40 * 2197 + 16057

/-- Counterexample to C2 as stated: a surviving, extracted candidate index
that is divisible by a sieved prime.  With a single sparse prime 16411
(with its primorial inverse 11286) and base `c2Tar`, index 0 of iteration
1 survives the merged sieve and is emitted by extraction — the pending
ring never marks position 0 — although
`base + (1·sieveSize + 0)·P + cumBias 0 ≡ 0 (mod 16411)`. -/
theorem sieve_unsound_at_zero :
    emittedAt (initResident c2Tar []) (initResident c2Tar [(16411, 11286)])
      segInit 1 0 ∧
    (c2Tar + (1 * sieveSize + 0) * primorial40 + cumBias 0) % 16411 = 0 := by
  constructor
  · have hd1 : ∀ pi ∈ ([] : List (Nat × Nat)), 1 ≤ pi.1 := by
      intro pi hpi; exact absurd hpi (List.not_mem_nil pi)
    have hs1 : ∀ pi ∈ [((16411:Nat), (11286:Nat))], 1 ≤ pi.1 := by
      intro pi hpi; fin_cases hpi; norm_num
    obtain ⟨dL, sL, hst, hdi, hsi⟩ :=
      stateAt_inv c2Tar [] [(16411, 11286)] hd1 hs1 1
    have hdLnil : dL = [] := by cases hdi; rfl
    subst hdLnil
    have hsL1 : ∀ pr2 ∈ sL, 1 ≤ pr2.1 := by
      intro pr2 hpr2
      obtain ⟨pi, hpi, hR⟩ := forall2_mem_right hsi pr2 hpr2
      fin_cases hpi
      have h1 := hR.1
      omega
    obtain ⟨mss, s2, hsstep, _, hbs, _⟩ :=
      processSieve_inv c2Tar 1 [(16411, 11286)] sL hs1 hsi
    obtain ⟨specMs, specOffs, hspec⟩ := processSieveSpec_ok sL hsL1
    have hpend := processSievePend_eq sL pendInit
    rw [hspec] at hpend
    have hps2 : processSieve sL
        = some (flushPending (specMs.foldl addToPending pendInit), specOffs) := by
      rw [processSieve, hpend]
      rfl
    rw [hsstep] at hps2
    injection hps2 with hps2
    have hmss : mss = flushPending (specMs.foldl addToPending pendInit) :=
      congrArg Prod.fst hps2
    have h0mss : (0 : Nat) ∉ mss := by
      rw [hmss, mem_flush_foldadd specMs pendInit 0 pendWF_init,
        flushPending_init]
      rintro (h | ⟨_, h⟩)
      · exact List.not_mem_nil 0 h
      · exact h rfl
    have happl : applySegment (segInit.hits 1) = [] := flushPending_init
    have hms : marksAt (initResident c2Tar []) (initResident c2Tar [(16411, 11286)])
        segInit 1 = some ([] ++ mss ++ applySegment (segInit.hits 1)) := by
      rw [marksAt, hst]
      show (sieveIter ([], sL)).map
          (fun r => r.1.1 ++ r.1.2 ++ applySegment (segInit.hits 1))
        = some ([] ++ mss ++ applySegment (segInit.hits 1))
      rw [sieveIter_eq [] sL [] [] mss s2 rfl hsstep]
      rfl
    refine ⟨[] ++ mss ++ applySegment (segInit.hits 1), hms, ?_⟩
    have hbound : ∀ x ∈ [] ++ mss ++ applySegment (segInit.hits 1), x < sieveSize := by
      intro x hx
      rw [happl] at hx
      rcases List.mem_append.mp hx with hx | hx
      · rcases List.mem_append.mp hx with hx | hx
        · exact absurd hx (List.not_mem_nil x)
        · exact hbs x hx
      · exact absurd hx (List.not_mem_nil x)
    apply (emitted_iff _ hbound 0).mpr
    refine ⟨by norm_num [sieveSize], ?_⟩
    rw [happl]
    intro h0
    rcases List.mem_append.mp h0 with h0 | h0
    · rcases List.mem_append.mp h0 with h0 | h0
      · exact List.not_mem_nil _ h0
      · exact h0mss h0
    · exact List.not_mem_nil _ h0
  · decide

/-- Witness for C2 (amended): one sparse prime `268435459` whose six
offsets for the base `primorial40 + 16057` all lie above `sieveSize`, so
iteration 0 marks nothing and index 1 is emitted; the theorem then gives
non-divisibility of the corresponding candidate. -/
theorem sieve_soundness_witness :
    ((∀ pi ∈ ([] : List (Nat × Nat)),
        5 ≤ pi.1 ∧ pi.1 < maxIncrements ∧ pi.2 < pi.1 ∧
          primorial40 * pi.2 % pi.1 = 1) ∧
      (∀ pi ∈ [((268435459:Nat), (148111908:Nat))],
        5 ≤ pi.1 ∧ pi.1 < maxIncrements ∧ pi.2 < pi.1 ∧
          primorial40 * pi.2 % pi.1 = 1) ∧
      (∀ pi ∈ ([] : List (Nat × Nat)),
        5 ≤ pi.1 ∧ maxIncrements ≤ pi.1 ∧ pi.1 < 2 ^ 32 ∧ pi.2 < pi.1 ∧
          primorial40 * pi.2 % pi.1 = 1) ∧
      putOffsetsInSegments 4 segInit
        (oncePushed (primorial40 * 1 + 16057) []) = some segInit ∧
      0 < maxiter ∧ (1:Nat) ≤ 1 ∧
      emittedAt (initResident (primorial40 * 1 + 16057) [])
        (initResident (primorial40 * 1 + 16057) [(268435459, 148111908)])
        segInit 0 1 ∧
      ((268435459:Nat), (148111908:Nat)) ∈
        ([] : List (Nat × Nat)) ++ [((268435459:Nat), (148111908:Nat))]
          ++ ([] : List (Nat × Nat)) ∧
      (0:Nat) < 6) ∧
    (primorial40 * 1 + 16057 + (0 * sieveSize + 1) * primorial40 + cumBias 0)
        % ((268435459:Nat), (148111908:Nat)).1 ≠ 0 := by
  have hd : ∀ pi ∈ ([] : List (Nat × Nat)),
      5 ≤ pi.1 ∧ pi.1 < maxIncrements ∧ pi.2 < pi.1 ∧
        primorial40 * pi.2 % pi.1 = 1 := by
    intro pi hpi; exact absurd hpi (List.not_mem_nil pi)
  have hs : ∀ pi ∈ [((268435459:Nat), (148111908:Nat))],
      5 ≤ pi.1 ∧ pi.1 < maxIncrements ∧ pi.2 < pi.1 ∧
        primorial40 * pi.2 % pi.1 = 1 := by
    intro pi hpi
    fin_cases hpi
    refine ⟨by norm_num, by norm_num [maxIncrements], by norm_num, by decide⟩
  have ho : ∀ pi ∈ ([] : List (Nat × Nat)),
      5 ≤ pi.1 ∧ maxIncrements ≤ pi.1 ∧ pi.1 < 2 ^ 32 ∧ pi.2 < pi.1 ∧
        primorial40 * pi.2 % pi.1 = 1 := by
    intro pi hpi; exact absurd hpi (List.not_mem_nil pi)
  have hseg : putOffsetsInSegments 4 segInit
      (oncePushed (primorial40 * 1 + 16057) []) = some segInit := rfl
  have hem : emittedAt (initResident (primorial40 * 1 + 16057) [])
      (initResident (primorial40 * 1 + 16057) [(268435459, 148111908)])
      segInit 0 1 := by
    refine ⟨[], by decide, ?_⟩
    apply (emitted_iff [] (by intro x hx; exact absurd hx (List.not_mem_nil x)) 1).mpr
    exact ⟨by norm_num [sieveSize], by simp⟩
  exact ⟨⟨hd, hs, ho, hseg, by norm_num [maxiter, maxIncrements, sieveSize],
      le_refl 1, hem, by decide, by norm_num⟩,
    sieve_soundness (primorial40 * 1) 16057 primorial40 4
      [] [(268435459, 148111908)] [] segInit hd hs ho hseg 0 1
      (by norm_num [maxiter, maxIncrements, sieveSize]) (le_refl 1) hem
      (268435459, 148111908) (by decide) 0 (by norm_num)⟩

end RieMiner
